import Mathlib

/-!
Verification development for the ijump structural interface-implementation
resolution engine.  The definitions below are a shallow embedding, faithful
to the sources:

* `src/goAstParser.ts` — the TypeScript side: `checkInterfaceImplementations`
  with its four passes (explicit, direct structural, embedding fixpoint,
  pointer-receiver reconciliation), the helper table builders
  (`getInterfaceMethods`, `getImplementations`, `getStructsInfo`), and the
  cached entry point `parseGoFile`.
* `src/parser/goparser.go` — the Go extractor: `getTypeNameFromExpr`, the
  interface/struct/method extraction loops, and `parseDirectory` with its
  one-level parent fallback.

JavaScript `Map`s and `Set`s iterate in insertion order; they are modelled as
insertion-ordered association lists (`SMap`) and insertion-ordered lists of
strings (`SSet`).  `Map.set` on an existing key keeps the original position;
on a fresh key it appends.  `Set.add` is a no-op on an existing element and
appends otherwise.  Equality checks performed by the JS runtime are modelled
by decidable string equality.
-/

namespace IJump

/-- Insertion-ordered association list modelling a JS `Map` keyed by strings. -/
abbrev SMap (α : Type) := List (String × α)

namespace SMap

/-- `Map.get`: first binding of the key, if any. -/
def lookup {α : Type} : SMap α → String → Option α
  | [], _ => none
  | (k, v) :: rest, key => if k = key then some v else lookup rest key

/-- `Map.has`. -/
def hasKey {α : Type} (m : SMap α) (key : String) : Bool :=
  (m.lookup key).isSome

/-- `Map.set`: replace in place (keeping position) if the key is bound,
otherwise append the new binding. -/
def setV {α : Type} : SMap α → String → α → SMap α
  | [], key, v => [(key, v)]
  | (k, w) :: rest, key, v =>
    if k = key then (k, v) :: rest else (k, w) :: setV rest key v

/-- Key list, in iteration order. -/
def keys {α : Type} (m : SMap α) : List String := m.map Prod.fst

end SMap

/-- Insertion-ordered set of strings modelling a JS `Set`. -/
abbrev SSet := List String

/-- `Set.add`: no-op when present, append otherwise. -/
def SSet.add (s : SSet) (x : String) : SSet :=
  if x ∈ s then s else s ++ [x]

/-- JS `String.prototype.startsWith`, as a prefix test on the character
sequence. -/
def jsStartsWith (s p : String) : Bool := p.data.isPrefixOf s.data

/-- JS `String.prototype.endsWith`, as a suffix test on the character
sequence. -/
def jsEndsWith (s p : String) : Bool := p.data.isSuffixOf s.data

/-- The guard testing that the struct name both starts and ends with a double underscore used
by the direct structural pass to skip the internal marker keys
(`__struct_def__`, `__interface_def__`). -/
def isSpecialKey (s : String) : Bool := jsStartsWith s "__" && jsEndsWith s "__"

/-! ### The Go extractor (`src/parser/goparser.go`) -/

/-- The shapes of `ast.Expr` distinguished by `getTypeNameFromExpr`: an
identifier, a pointer (`StarExpr`), a qualified name (`SelectorExpr`), and
every other expression form. -/
inductive GoExpr : Type
  | ident (name : String)
  | star (e : GoExpr)
  | selector (x : GoExpr) (sel : String)
  | otherExpr
deriving DecidableEq, Repr

/-- `getTypeNameFromExpr` (goparser.go:80-94): the type name together with
the pointer flag; unresolvable shapes give the empty name. -/
def getTypeNameFromExpr : GoExpr → String × Bool
  | .ident n => (n, false)
  | .star (.ident n) => (n, true)
  | .star _ => ("", false)
  | .selector (.ident n) sel => (n ++ "." ++ sel, false)
  | .selector _ _ => ("", false)
  | .otherExpr => ("", false)

/-- One entry of an interface or struct field list: the declared names (empty
for an embedded entry) and the type expression.  Positions are omitted: no
claim depends on the recorded line numbers. -/
structure GoField : Type where
  names : List String
  type : GoExpr
deriving DecidableEq, Repr

/-- One entry of the interface-body loop (goparser.go:242-260): a named
entry appends one method per name; an unnamed entry whose type name
resolves assigns the `InternalType` field, overwriting any earlier
assignment. -/
def parseInterfaceFieldStep (acc : List String × Option String) (field : GoField) :
    List String × Option String :=
  if field.names.length > 0 then (acc.1 ++ field.names, acc.2)
  else if (getTypeNameFromExpr field.type).1 ≠ "" then
    (acc.1, some (getTypeNameFromExpr field.type).1)
  else acc

/-- The interface-body loop of `parseDirectory` (goparser.go:242-260): the
accumulated method names and the final `InternalType`. -/
def parseInterfaceFields (fields : List GoField) : List String × Option String :=
  fields.foldl parseInterfaceFieldStep ([], none)

/-- Specification-side description of the recorded embedded-interface name:
the name of the last unnamed entry, in declaration order, whose type name
resolves. -/
def lastEmbeddedName (fields : List GoField) : Option String :=
  (fields.filterMap
    (fun f =>
      if f.names.length > 0 then none
      else if (getTypeNameFromExpr f.type).1 = "" then none
      else some (getTypeNameFromExpr f.type).1)).getLast?

/-- A method implementation record as emitted by the extractor
(goparser.go:324-340): the receiver type name has pointer indirection
stripped by `getTypeNameFromExpr`; pointer-ness lives in `isPointer`. -/
structure ImplementationInfoM : Type where
  receiverType : String
  methodName : String
  isPointer : Bool
deriving DecidableEq, Repr

/-- The `FuncDecl` branch of the extractor: a receiver-carrying function
yields a record when the receiver type name resolves, and is dropped
otherwise. -/
def extractMethodImpl (recvType : GoExpr) (methodName : String) :
    Option ImplementationInfoM :=
  let r := getTypeNameFromExpr recvType
  if r.1 ≠ "" then some ⟨r.1, methodName, r.2⟩ else none

/-! ### The satisfaction engine (`src/goAstParser.ts`, `checkInterfaceImplementations`) -/

/-- One value of the `structsMap` built by `getStructsInfo`: the optional
comment-asserted interface names (key `implementsInterfaces`) and the field
map (key `fields`, field name to declared type and embedded flag).  Both are
optional because `checkInterfaceImplementations` probes them with
`Map.has`. -/
structure FieldEntry : Type where
  type : String
  embedded : Bool
deriving DecidableEq, Repr

structure StructEntry : Type where
  implementsInterfaces : Option (List String)
  fields : Option (SMap FieldEntry)
deriving DecidableEq, Repr

/-- The mutable state of `checkInterfaceImplementations`: the returned set
`implementedInterfaces` and the internal map `interfaceImplementations`
from interface name to the set of recorded satisfier structs.  The TS
function returns only the first component; the second is carried so that
the recorded relation can be stated. -/
structure CheckState : Type where
  implemented : SSet
  impls : SMap SSet
deriving DecidableEq, Repr

/-- The helper `addImplementation` (goAstParser.ts:550-557). -/
def addImplementation (st : CheckState) (iName sName : String) : CheckState :=
  let implemented := st.implemented.add iName
  let impls0 := if st.impls.hasKey iName then st.impls else st.impls.setV iName []
  let impls := impls0.setV iName (((impls0.lookup iName).getD []).add sName)
  ⟨implemented, impls⟩

/-- The satisfier set recorded for an interface name. -/
def satisfiers (st : CheckState) (iName : String) : SSet :=
  (st.impls.lookup iName).getD []

/-- Explicit pass, inner loop over the asserted interface names of one struct
(goAstParser.ts:564-568). -/
def explicitInnerStep (imm : SMap (List String)) (sName : String)
    (st : CheckState) (iName : String) : CheckState :=
  if imm.hasKey iName then addImplementation st iName sName else st

/-- Explicit pass, one struct (goAstParser.ts:561-570). -/
def explicitStep (imm : SMap (List String)) (st : CheckState)
    (e : String × StructEntry) : CheckState :=
  match e.2.implementsInterfaces with
  | none => st
  | some l => l.foldl (explicitInnerStep imm e.1) st

/-- Explicit pass (goAstParser.ts:559-571). -/
def explicitPass (imm : SMap (List String)) (sm : SMap StructEntry)
    (st : CheckState) : CheckState :=
  sm.foldl (explicitStep imm) st

/-- Method-name collection of the direct structural pass
(goAstParser.ts:590-595): inner-map keys not starting with `__`. -/
def structMethodNames (methodKeys : List String) : SSet :=
  methodKeys.foldl
    (fun acc m => if jsStartsWith m "__" then acc else acc.add m) []

/-- The count of required interface methods present in the collected
struct-method set (goAstParser.ts:598-603). -/
def countImplementedMethods (ifaceMethods : List String) (names : SSet) : Nat :=
  ifaceMethods.foldl (fun c m => if m ∈ names then c + 1 else c) 0

/-- Direct structural pass, one struct entry for a fixed interface
(goAstParser.ts:581-615).  `implementationRate === 1.0` holds exactly when
the float quotient `cnt / len` equals one, i.e. `cnt = len` with `len ≠ 0`
(IEEE division of equal naturals below `2^53` is exactly `1.0`, and a
strictly smaller numerator gives a quotient strictly below `1.0`). -/
def structuralInnerStep (iName : String) (ifaceMethods : List String)
    (st : CheckState) (e : String × List String) : CheckState :=
  if isSpecialKey e.1 ∨
      ((st.impls.lookup iName).isSome ∧ e.1 ∈ (st.impls.lookup iName).getD []) then
    st
  else if ifaceMethods.length ≠ 0 ∧
      countImplementedMethods ifaceMethods (structMethodNames e.2) = ifaceMethods.length then
    addImplementation st iName e.1
  else st

/-- Direct structural pass, inner loop over the struct-method map. -/
def structuralInner (iName : String) (ifaceMethods : List String)
    (smm : SMap (List String)) (st : CheckState) : CheckState :=
  smm.foldl (structuralInnerStep iName ifaceMethods) st

/-- Direct structural pass, one interface entry (goAstParser.ts:574-616):
interfaces with an empty required set, and interfaces already recorded as
implemented, are skipped. -/
def structuralOuterStep (smm : SMap (List String)) (st : CheckState)
    (e : String × List String) : CheckState :=
  if e.2.length = 0 ∨ e.1 ∈ st.implemented then st
  else structuralInner e.1 e.2 smm st

/-- Direct structural pass (goAstParser.ts:573-616). -/
def structuralPass (imm : SMap (List String)) (smm : SMap (List String))
    (st : CheckState) : CheckState :=
  imm.foldl (structuralOuterStep smm) st

/-- Embedding pass, innermost loop body (goAstParser.ts:648-660): one entry
of `interfaceImplementations` checked against one embedded field.  The JS
loop iterates the live map; since `addImplementation` is only invoked with
interface names that are already keys, the key sequence is stable, and the
satisfier sets are mutated in place, which the threaded lookups model. -/
def embedScanStep (sName fieldType : String) (acc : CheckState × Bool)
    (e : String × SSet) : CheckState × Bool :=
  if fieldType ∈ (acc.1.impls.lookup e.1).getD [] ∨ e.1 = fieldType then
    if ¬((acc.1.impls.lookup e.1).isSome ∧ sName ∈ (acc.1.impls.lookup e.1).getD []) then
      (addImplementation acc.1 e.1 sName, true)
    else acc
  else acc

/-- Embedding pass: scan all recorded interface entries against one embedded
field of the struct `sName`. -/
def embedFieldScan (sName fieldType : String) (acc : CheckState × Bool) :
    CheckState × Bool :=
  acc.1.impls.foldl (embedScanStep sName fieldType) acc

/-- Embedding pass, one field (goAstParser.ts:640-661): only embedded fields
participate. -/
def embedFieldStep (sName : String) (acc : CheckState × Bool)
    (f : String × FieldEntry) : CheckState × Bool :=
  if f.2.embedded = false then acc else embedFieldScan sName f.2.type acc

/-- Embedding pass, one struct (goAstParser.ts:628-662): structs without a
`fields` entry, or with an empty field map, are skipped. -/
def embedStructStep (acc : CheckState × Bool) (e : String × StructEntry) :
    CheckState × Bool :=
  match e.2.fields with
  | none => acc
  | some fields => if fields.length = 0 then acc else fields.foldl (embedFieldStep e.1) acc

/-- One iteration of the embedding fixpoint: a full scan over `structsMap`,
returning the new state and the `hasNewImplementation` flag. -/
def embedIterationOnce (sm : SMap StructEntry) (st : CheckState) :
    CheckState × Bool :=
  sm.foldl embedStructStep (st, false)

/-- The `while (hasNewImplementation && iterations < maxIterations)` loop
(goAstParser.ts:620-663), with `maxIterations = 5`. -/
def embedLoop (sm : SMap StructEntry) : Nat → CheckState → CheckState
  | 0, st => st
  | n + 1, st =>
    if (embedIterationOnce sm st).2 then embedLoop sm n (embedIterationOnce sm st).1
    else (embedIterationOnce sm st).1

/-- Embedding fixpoint pass (goAstParser.ts:618-664). -/
def embeddingPass (sm : SMap StructEntry) (st : CheckState) : CheckState :=
  embedLoop sm 5 st

/-- Pointer pass: the receiver names appearing with a leading `*` in the
struct-method map, with the star stripped (goAstParser.ts:672-678). -/
def collectPointerReceivers (smm : SMap (List String)) : SSet :=
  smm.foldl
    (fun acc e =>
      if jsStartsWith e.1 "*" then acc.add (String.mk (e.1.data.drop 1)) else acc)
    []

/-- Pointer pass: union of the value-receiver and pointer-receiver method
names of a base struct name, markers excluded (goAstParser.ts:683-702). -/
def mergedMethodSet (smm : SMap (List String)) (sName : String) : SSet :=
  let base :=
    match smm.lookup sName with
    | some ks => ks.foldl (fun acc m => if jsStartsWith m "__" then acc else acc.add m) []
    | none => []
  match smm.lookup ("*" ++ sName) with
  | some ks => ks.foldl (fun acc m => if jsStartsWith m "__" then acc else acc.add m) base
  | none => base

/-- Pointer pass, one candidate base name for a fixed interface
(goAstParser.ts:681-723). -/
def pointerInnerStep (smm : SMap (List String)) (iName : String)
    (ifaceMethods : List String) (st : CheckState) (sName : String) : CheckState :=
  if smm.hasKey sName ∨ smm.hasKey ("*" ++ sName) then
    if ifaceMethods.length ≠ 0 ∧
        countImplementedMethods ifaceMethods (mergedMethodSet smm sName) = ifaceMethods.length then
      addImplementation st iName sName
    else st
  else st

/-- Pointer pass, one interface entry (goAstParser.ts:667-724). -/
def pointerOuterStep (smm : SMap (List String)) (st : CheckState)
    (e : String × List String) : CheckState :=
  if e.2.length = 0 ∨ e.1 ∈ st.implemented then st
  else (collectPointerReceivers smm).foldl (pointerInnerStep smm e.1 e.2) st

/-- Pointer-receiver reconciliation pass (goAstParser.ts:666-724). -/
def pointerPass (imm : SMap (List String)) (smm : SMap (List String))
    (st : CheckState) : CheckState :=
  imm.foldl (pointerOuterStep smm) st

/-- `checkInterfaceImplementations` (goAstParser.ts:540-727): explicit pass,
direct structural pass, embedding fixpoint, pointer reconciliation, in that
order.  The TS function returns `st.implemented`; the full state is kept so
that the recorded relation is observable. -/
def checkInterfaceImplementations (imm : SMap (List String))
    (smm : SMap (List String)) (structsMap : Option (SMap StructEntry)) :
    CheckState :=
  pointerPass imm smm
    (match structsMap with
     | some sm => embeddingPass sm (structuralPass imm smm (explicitPass imm sm ⟨[], []⟩))
     | none => structuralPass imm smm ⟨[], []⟩)

/-- Variant of `checkInterfaceImplementations` with the pointer-receiver
reconciliation pass removed, used to state the refinement claim that the
pass is inert on extractor-produced inputs. -/
def checkInterfaceImplementationsNoPtr (imm : SMap (List String))
    (smm : SMap (List String)) (structsMap : Option (SMap StructEntry)) :
    CheckState :=
  match structsMap with
  | some sm => embeddingPass sm (structuralPass imm smm (explicitPass imm sm ⟨[], []⟩))
  | none => structuralPass imm smm ⟨[], []⟩

/-! ### The table builders (`src/goAstParser.ts`) -/

/-- `getInterfaceMethods` (goAstParser.ts:383-402): interface name to its
required method-name list. -/
def getInterfaceMethods (ifaces : List (String × List String)) :
    SMap (List String) :=
  ifaces.foldl (fun acc i => acc.setV i.1 i.2) []

/-- `getImplementations` (goAstParser.ts:442-475) restricted to what the
engine reads from it: the ordered key list of each inner location map.
Methods are keyed by (pointer-stripped) receiver type; afterwards every
struct name receives a `__struct_def__` marker key. -/
def getImplementations (methods : List ImplementationInfoM)
    (structNames : List String) : SMap (List String) :=
  let m := methods.foldl
    (fun (acc : SMap (List String)) mi =>
      SMap.setV acc mi.receiverType
        (SSet.add ((SMap.lookup acc mi.receiverType).getD []) mi.methodName))
    []
  structNames.foldl
    (fun (acc : SMap (List String)) s =>
      SMap.setV acc s (SSet.add ((SMap.lookup acc s).getD []) "__struct_def__")) m

/-- A field declaration as consumed by `getStructsInfo`. -/
structure FieldEntryNamed : Type where
  name : String
  type : String
  embedded : Bool
deriving DecidableEq, Repr

/-- A struct declaration as consumed by `getStructsInfo`. -/
structure StructInfoM : Type where
  name : String
  fields : List FieldEntryNamed
deriving DecidableEq, Repr

/-- `getStructsInfo` (goAstParser.ts:480-510): every struct gets a `fields`
map; `findInterfaceImplementationMarkers` is an empty stub, so
`implementsInterfaces` is never populated by this builder. -/
def getStructsInfo (structs : List StructInfoM) : SMap StructEntry :=
  structs.foldl
    (fun acc s =>
      acc.setV s.name
        ⟨none, some (s.fields.foldl (fun fm f => fm.setV f.name ⟨f.type, f.embedded⟩) [])⟩)
    []

/-! ### Directory scanning (`src/parser/goparser.go`, `parseDirectory`) -/

/-- The parse of one Go file: the package clause name and the names of the
declared interfaces, structs and methods (declaration payloads are not
needed for the directory-grouping claims).  `none` models a file
`parser.ParseFile` rejects. -/
structure GoFileContent : Type where
  pkgName : String
  interfaces : List String
  structs : List String
  methods : List String
deriving DecidableEq, Repr

/-- One entry of `ParseResult.Packages`. -/
structure PkgInfoM : Type where
  path : String
  name : String
  interfaces : List String
  structs : List String
  methods : List String
deriving DecidableEq, Repr

/-- The file system as `parseDirectory` observes it: the (glob-ordered)
parses of the `*.go` files of each directory, and `filepath.Dir`. -/
structure DirFS : Type where
  filesOf : String → List (Option GoFileContent)
  parent : String → String

/-- The per-file body of `processDir` (goparser.go:201-347): an unparseable
file is skipped; otherwise the package entry keyed by the containing
directory is created on first sight (taking its name from the package
clause) and extended with the declarations of the file. -/
def processDirStep (dir : String) (res : SMap PkgInfoM)
    (pf : Option GoFileContent) : SMap PkgInfoM :=
  match pf with
  | none => res
  | some c =>
    match SMap.lookup res dir with
    | some p =>
      SMap.setV res dir ⟨p.path, p.name, p.interfaces ++ c.interfaces,
        p.structs ++ c.structs, p.methods ++ c.methods⟩
    | none => SMap.setV res dir ⟨dir, c.pkgName, c.interfaces, c.structs, c.methods⟩

/-- `processDir` (goparser.go:186-350): skip an already-processed directory,
otherwise record it in `processedDirs` and fold its files into the result.
The second component is the `processedDirs` record, in processing order. -/
def processDir (fs : DirFS) (dir : String) (acc : SMap PkgInfoM × List String) :
    SMap PkgInfoM × List String :=
  if dir ∈ acc.2 then acc
  else ((fs.filesOf dir).foldl (processDirStep dir) acc.1, acc.2 ++ [dir])

/-- `parseDirectory` (goparser.go:177-367): process the target directory;
when that leaves zero package entries, process the parent directory once
(guarded by `parentDir != dirPath`). -/
def parseDirectory (fs : DirFS) (dirPath : String) : SMap PkgInfoM × List String :=
  if (processDir fs dirPath ([], [])).1.length = 0 then
    if fs.parent dirPath ≠ dirPath then
      processDir fs (fs.parent dirPath) (processDir fs dirPath ([], []))
    else processDir fs dirPath ([], [])
  else processDir fs dirPath ([], [])

/-- A concrete file system: the target directory `proj/sub` holds one
parseable file with a package clause and zero type declarations; its parent
`proj` holds a file declaring an interface. -/
def c8fs : DirFS where
  filesOf := fun d =>
    if d = "proj/sub" then [some ⟨"main", [], [], []⟩]
    else if d = "proj" then [some ⟨"proj", ["Reader"], [], []⟩]
    else []
  parent := fun d => if d = "proj/sub" then "proj" else "root"

/-! ### The cached entry point (`src/goAstParser.ts`, `parseGoFile`) -/

/-- The parse result consumed and cached by `parseGoFile`. -/
structure GoAstResultM : Type where
  packages : SMap PkgInfoM
deriving DecidableEq, Repr

/-- The literal empty result (a result with an empty packages map) returned on every failure path. -/
def emptyGoAstResult : GoAstResultM := ⟨[]⟩

/-- Outcome of running the external parser on the file and decoding its
output: process execution failure, undecodable JSON, decoded but invalid
(`!result || !result.packages`), or a decoded result. -/
inductive ParseOutcome : Type
  | execError
  | jsonError
  | invalidResult
  | ok (r : GoAstResultM)
deriving DecidableEq, Repr

/-- The environment of one `parseGoFile` call: whether `ensureParserReady`
succeeds, whether `parserBinPath` is set, whether the file exists on disk,
`path.dirname`, and the parser outcome.  An unchanged file corresponds to
an unchanged environment. -/
structure ParseEnv : Type where
  parserReady : Bool
  parserBinSet : Bool
  fileOnDisk : Bool
  dirOf : String → String
  outcome : ParseOutcome

/-- The five cache maps of `GoAstParser` (goAstParser.ts:70-76). -/
structure ParserCaches : Type where
  fileCache : SMap GoAstResultM
  fileCacheTimes : SMap Nat
  parseCache : SMap GoAstResultM
  cacheTimes : SMap Nat
  packageCache : SMap String
deriving DecidableEq, Repr

/-- Fresh caches. -/
def emptyCaches : ParserCaches := ⟨[], [], [], [], []⟩

/-- 30 seconds, `fileCacheTimeToLive` (goAstParser.ts:74). -/
def fileCacheTimeToLive : Nat := 30000

/-- 5 minutes, `cacheTimeToLive` (goAstParser.ts:73). -/
def cacheTimeToLive : Nat := 300000

/-- The guard of the fast path (goAstParser.ts:249-255): a file-cache entry
exists and is younger than the file TTL.  Subtraction on `Nat` agrees with
the JS `now - cacheTime < ttl` comparison whenever the stored time is not in
the future, and both accept the entry when it is. -/
def fileCacheValid (st : ParserCaches) (filePath : String) (now : Nat) : Prop :=
  (SMap.lookup st.fileCache filePath).isSome = true ∧
    now - ((SMap.lookup st.fileCacheTimes filePath).getD 0) < fileCacheTimeToLive

instance (st : ParserCaches) (filePath : String) (now : Nat) :
    Decidable (fileCacheValid st filePath now) := by
  unfold fileCacheValid
  infer_instance

/-- The guard of the package-cache path (goAstParser.ts:264-276). -/
def pkgCacheValid (st : ParserCaches) (packagePath : String) (now : Nat) : Prop :=
  (SMap.lookup st.parseCache packagePath).isSome = true ∧
    now - ((SMap.lookup st.cacheTimes packagePath).getD 0) < cacheTimeToLive

instance (st : ParserCaches) (packagePath : String) (now : Nat) :
    Decidable (pkgCacheValid st packagePath now) := by
  unfold pkgCacheValid
  infer_instance

/-- The result of one `parseGoFile` call: the returned value, the caches
after the call, and whether the external parser binary was executed. -/
structure ParseCall : Type where
  result : GoAstResultM
  caches : ParserCaches
  parserInvoked : Bool
deriving DecidableEq, Repr

/-- The slow half of `parseGoFile` (goAstParser.ts:257-353), entered after
the file-cache miss: package cache, readiness checks, file existence,
parser execution, JSON decoding.  Every failure branch returns
the empty result; a decoded result is cached at both granularities only
when it contains at least one package. -/
def parseGoFileSlow (env : ParseEnv) (st : ParserCaches)
    (filePath packagePath : String) (now : Nat) : ParseCall :=
  if pkgCacheValid st packagePath now then
    ⟨(SMap.lookup st.parseCache packagePath).getD emptyGoAstResult,
      { st with
        fileCache := SMap.setV st.fileCache filePath
          ((SMap.lookup st.parseCache packagePath).getD emptyGoAstResult),
        fileCacheTimes := SMap.setV st.fileCacheTimes filePath now },
      false⟩
  else if env.parserReady = false then ⟨emptyGoAstResult, st, false⟩
  else if env.parserBinSet = false then ⟨emptyGoAstResult, st, false⟩
  else if env.fileOnDisk = false then ⟨emptyGoAstResult, st, false⟩
  else
    match env.outcome with
    | .execError => ⟨emptyGoAstResult, st, true⟩
    | .jsonError => ⟨emptyGoAstResult, st, true⟩
    | .invalidResult => ⟨emptyGoAstResult, st, true⟩
    | .ok r =>
      if 0 < r.packages.length then
        ⟨r,
          { st with
            parseCache := SMap.setV st.parseCache packagePath r,
            cacheTimes := SMap.setV st.cacheTimes packagePath now,
            fileCache := SMap.setV st.fileCache filePath r,
            fileCacheTimes := SMap.setV st.fileCacheTimes filePath now },
          true⟩
      else ⟨r, st, true⟩

/-- `parseGoFile` (goAstParser.ts:245-354): fast path through the file
cache, then the package path mapping is recorded and the slow half runs. -/
def parseGoFile (env : ParseEnv) (st : ParserCaches) (filePath : String)
    (now : Nat) : ParseCall :=
  if fileCacheValid st filePath now then
    ⟨(SMap.lookup st.fileCache filePath).getD emptyGoAstResult, st, false⟩
  else
    parseGoFileSlow env
      { st with
        packageCache := SMap.setV st.packageCache filePath (env.dirOf filePath) }
      filePath (env.dirOf filePath) now

/-! ### Basic lemmas about the map and set model -/

namespace SMap

theorem lookup_setV_self {α : Type} (m : SMap α) (k : String) (v : α) :
    lookup (setV m k v) k = some v := by
  induction m with
  | nil => simp [setV, lookup]
  | cons e rest ih =>
    by_cases h : e.1 = k
    · simp [setV, h, lookup]
    · simpa [setV, h, lookup] using ih

theorem keys_nil {α : Type} : keys ([] : SMap α) = [] := rfl

theorem keys_cons {α : Type} (e : String × α) (rest : SMap α) :
    keys (e :: rest) = e.1 :: keys rest := rfl

theorem mem_keys {α : Type} (m : SMap α) (x : String) :
    x ∈ keys m ↔ ∃ e ∈ m, e.1 = x := by
  simp [keys, List.mem_map]

theorem lookup_setV_ne {α : Type} (m : SMap α) (k k' : String) (v : α)
    (h : k' ≠ k) : lookup (setV m k v) k' = lookup m k' := by
  induction m with
  | nil =>
    simp only [setV, lookup]
    rw [if_neg (Ne.symm h)]
  | cons e rest ih =>
    by_cases he : e.1 = k
    · have hk' : ¬ e.1 = k' := fun hh => h (hh.symm.trans he)
      simp only [setV, if_pos he, lookup, if_neg hk']
    · simp only [setV, if_neg he, lookup]
      by_cases he' : e.1 = k'
      · rw [if_pos he', if_pos he']
      · rw [if_neg he', if_neg he', ih]

theorem mem_keys_setV {α : Type} (m : SMap α) (k x : String) (v : α) :
    x ∈ keys (setV m k v) ↔ x = k ∨ x ∈ keys m := by
  induction m with
  | nil =>
    simp [setV, keys, eq_comm]
  | cons e rest ih =>
    by_cases he : e.1 = k
    · simp only [setV, if_pos he, keys_cons, List.mem_cons]
      rw [he]
      tauto
    · simp only [setV, if_neg he, keys_cons, List.mem_cons]
      rw [ih]
      tauto

theorem lookup_isSome_iff_mem_keys {α : Type} (m : SMap α) (k : String) :
    (lookup m k).isSome ↔ k ∈ keys m := by
  induction m with
  | nil => simp [lookup, keys]
  | cons e rest ih =>
    rw [keys_cons, List.mem_cons]
    by_cases h : e.1 = k
    · simp [lookup, h, eq_comm]
    · simp only [lookup, if_neg h]
      rw [ih]
      constructor
      · exact Or.inr
      · rintro (hh | hh)
        · exact absurd hh.symm h
        · exact hh

theorem mem_of_lookup_eq_some {α : Type} (m : SMap α) (k : String) (v : α)
    (h : lookup m k = some v) : (k, v) ∈ m := by
  induction m with
  | nil => simp [lookup] at h
  | cons e rest ih =>
    obtain ⟨e1, e2⟩ := e
    by_cases he : e1 = k
    · simp only [lookup, if_pos he] at h
      injection h with hv
      subst he
      subst hv
      exact List.mem_cons_self _ _
    · simp only [lookup, if_neg he] at h
      exact List.mem_cons_of_mem _ (ih h)

theorem lookup_eq_some_of_mem {α : Type} (m : SMap α) (k : String) (v : α)
    (hnd : (keys m).Nodup) (h : (k, v) ∈ m) : lookup m k = some v := by
  induction m with
  | nil => simp at h
  | cons e rest ih =>
    rw [keys_cons, List.nodup_cons] at hnd
    rcases List.mem_cons.mp h with h | h
    · rw [← h]
      simp [lookup]
    · have hk : e.1 ≠ k := by
        intro he
        exact hnd.1 (he ▸ ((mem_keys rest k).mpr ⟨(k, v), h, rfl⟩))
      simp only [lookup, if_neg hk]
      exact ih hnd.2 h

/-- Splitting a map with distinct keys at a key it binds: the prefix and the
suffix avoid that key. -/
theorem exists_split_of_lookup {α : Type} (m : SMap α) (k : String) (v : α)
    (hnd : (keys m).Nodup) (h : lookup m k = some v) :
    ∃ pre post, m = pre ++ (k, v) :: post ∧
      (∀ e ∈ pre, e.1 ≠ k) ∧ (∀ e ∈ post, e.1 ≠ k) := by
  induction m with
  | nil => simp [lookup] at h
  | cons e rest ih =>
    rw [keys_cons, List.nodup_cons] at hnd
    obtain ⟨e1, e2⟩ := e
    by_cases he : e1 = k
    · subst he
      simp only [lookup, if_pos rfl] at h
      injection h with hv
      subst hv
      refine ⟨[], rest, by simp, by simp, ?_⟩
      intro e' he' hk
      exact hnd.1 (hk ▸ ((mem_keys rest e'.1).mpr ⟨e', he', rfl⟩))
    · simp only [lookup, if_neg he] at h
      obtain ⟨pre, post, heq, hpre, hpost⟩ := ih hnd.2 h
      refine ⟨(e1, e2) :: pre, post, by simp [heq], ?_, hpost⟩
      intro e' he'
      rcases List.mem_cons.mp he' with h' | h'
      · subst h'
        exact he
      · exact hpre e' h'

end SMap

theorem SSet.mem_add_iff (s : SSet) (x y : String) :
    y ∈ SSet.add s x ↔ y = x ∨ y ∈ s := by
  unfold SSet.add
  by_cases h : x ∈ s
  · simp only [if_pos h]
    constructor
    · exact Or.inr
    · rintro (rfl | hy)
      · exact h
      · exact hy
  · simp [if_neg h, or_comm]

theorem SSet.mem_add_self (s : SSet) (x : String) : x ∈ SSet.add s x :=
  (SSet.mem_add_iff s x x).mpr (Or.inl rfl)

theorem SSet.mem_add_of_mem (s : SSet) (x y : String) (h : y ∈ s) :
    y ∈ SSet.add s x :=
  (SSet.mem_add_iff s x y).mpr (Or.inr h)

/-! ### Effect of `addImplementation` on the state -/

theorem satisfiers_addImplementation_self (st : CheckState) (i s : String) :
    satisfiers (addImplementation st i s) i = SSet.add (satisfiers st i) s := by
  unfold addImplementation satisfiers SMap.hasKey
  cases hl : SMap.lookup st.impls i with
  | none =>
    simp only [hl, Option.isSome_none, Bool.false_eq_true, if_false,
      SMap.lookup_setV_self, Option.getD_some, Option.getD_none]
  | some v =>
    simp only [hl, Option.isSome_some, if_true, SMap.lookup_setV_self, Option.getD_some]

theorem satisfiers_addImplementation_ne (st : CheckState) (i s j : String)
    (h : j ≠ i) : satisfiers (addImplementation st i s) j = satisfiers st j := by
  unfold addImplementation satisfiers SMap.hasKey
  cases hl : SMap.lookup st.impls i with
  | none =>
    simp only [hl, Option.isSome_none, Bool.false_eq_true, if_false,
      SMap.lookup_setV_ne _ _ _ _ h, SMap.lookup_setV_ne _ _ _ _ h]
  | some v =>
    simp only [hl, Option.isSome_some, if_true, SMap.lookup_setV_ne _ _ _ _ h]

theorem implemented_addImplementation (st : CheckState) (i s : String) :
    (addImplementation st i s).implemented = SSet.add st.implemented i := rfl

theorem mem_keys_impls_addImplementation (st : CheckState) (i s x : String) :
    x ∈ SMap.keys (addImplementation st i s).impls ↔
      x = i ∨ x ∈ SMap.keys st.impls := by
  unfold addImplementation SMap.hasKey
  cases hl : SMap.lookup st.impls i with
  | none =>
    simp only [hl, Option.isSome_none, Bool.false_eq_true, if_false]
    rw [SMap.mem_keys_setV, SMap.mem_keys_setV]
    tauto
  | some v =>
    simp only [hl, Option.isSome_some, if_true]
    rw [SMap.mem_keys_setV]

/-- The state only ever grows: ordering used for monotonicity of the passes. -/
def StateLE (st st' : CheckState) : Prop :=
  (∀ i, i ∈ st.implemented → i ∈ st'.implemented) ∧
  (∀ i s, s ∈ satisfiers st i → s ∈ satisfiers st' i) ∧
  (∀ i, i ∈ SMap.keys st.impls → i ∈ SMap.keys st'.impls)

theorem StateLE.refl (st : CheckState) : StateLE st st :=
  ⟨fun _ h => h, fun _ _ h => h, fun _ h => h⟩

theorem StateLE.trans {a b c : CheckState} (h1 : StateLE a b) (h2 : StateLE b c) :
    StateLE a c :=
  ⟨fun i h => h2.1 i (h1.1 i h),
   fun i s h => h2.2.1 i s (h1.2.1 i s h),
   fun i h => h2.2.2 i (h1.2.2 i h)⟩

theorem stateLE_addImplementation (st : CheckState) (i s : String) :
    StateLE st (addImplementation st i s) := by
  refine ⟨fun j h => ?_, fun j t h => ?_, fun j h => ?_⟩
  · rw [implemented_addImplementation]
    exact SSet.mem_add_of_mem _ _ _ h
  · by_cases hj : j = i
    · subst hj
      rw [satisfiers_addImplementation_self]
      exact SSet.mem_add_of_mem _ _ _ h
    · rwa [satisfiers_addImplementation_ne _ _ _ _ hj]
  · exact (mem_keys_impls_addImplementation st i s j).mpr (Or.inr h)

theorem foldl_stateLE {α : Type} (f : CheckState → α → CheckState)
    (h : ∀ st a, StateLE st (f st a)) (l : List α) (st : CheckState) :
    StateLE st (l.foldl f st) := by
  induction l generalizing st with
  | nil => exact StateLE.refl st
  | cons a rest ih => exact (h st a).trans (ih (f st a))

theorem foldl_stateLE_pair {α β : Type} (f : CheckState × β → α → CheckState × β)
    (h : ∀ acc a, StateLE acc.1 (f acc a).1) (l : List α) (acc : CheckState × β) :
    StateLE acc.1 (l.foldl f acc).1 := by
  induction l generalizing acc with
  | nil => exact StateLE.refl acc.1
  | cons a rest ih => exact (h acc a).trans (ih (f acc a))

/-! ### Monotonicity of every pass -/

theorem stateLE_explicitInnerStep (imm : SMap (List String)) (sName : String)
    (st : CheckState) (iName : String) :
    StateLE st (explicitInnerStep imm sName st iName) := by
  unfold explicitInnerStep
  split
  · exact stateLE_addImplementation st iName sName
  · exact StateLE.refl st

theorem stateLE_explicitStep (imm : SMap (List String)) (st : CheckState)
    (e : String × StructEntry) : StateLE st (explicitStep imm st e) := by
  unfold explicitStep
  split
  · exact StateLE.refl st
  · exact foldl_stateLE _ (stateLE_explicitInnerStep imm e.1) _ st

theorem mono_explicitPass (imm : SMap (List String)) (sm : SMap StructEntry)
    (st : CheckState) : StateLE st (explicitPass imm sm st) :=
  foldl_stateLE _ (stateLE_explicitStep imm) sm st

theorem stateLE_structuralInnerStep (iName : String) (ms : List String)
    (st : CheckState) (e : String × List String) :
    StateLE st (structuralInnerStep iName ms st e) := by
  unfold structuralInnerStep
  split
  · exact StateLE.refl st
  · split
    · exact stateLE_addImplementation st iName e.1
    · exact StateLE.refl st

theorem mono_structuralInner (iName : String) (ms : List String)
    (smm : SMap (List String)) (st : CheckState) :
    StateLE st (structuralInner iName ms smm st) :=
  foldl_stateLE _ (stateLE_structuralInnerStep iName ms) smm st

theorem stateLE_structuralOuterStep (smm : SMap (List String)) (st : CheckState)
    (e : String × List String) : StateLE st (structuralOuterStep smm st e) := by
  unfold structuralOuterStep
  split
  · exact StateLE.refl st
  · exact mono_structuralInner e.1 e.2 smm st

theorem mono_structuralPass (imm smm : SMap (List String)) (st : CheckState) :
    StateLE st (structuralPass imm smm st) :=
  foldl_stateLE _ (stateLE_structuralOuterStep smm) imm st

theorem stateLE_embedScanStep (sName fieldType : String) (acc : CheckState × Bool)
    (e : String × SSet) : StateLE acc.1 (embedScanStep sName fieldType acc e).1 := by
  unfold embedScanStep
  split
  · split
    · exact stateLE_addImplementation acc.1 e.1 sName
    · exact StateLE.refl acc.1
  · exact StateLE.refl acc.1

theorem mono_embedFieldScan (sName fieldType : String) (acc : CheckState × Bool) :
    StateLE acc.1 (embedFieldScan sName fieldType acc).1 :=
  foldl_stateLE_pair _ (stateLE_embedScanStep sName fieldType) _ acc

theorem stateLE_embedFieldStep (sName : String) (acc : CheckState × Bool)
    (f : String × FieldEntry) : StateLE acc.1 (embedFieldStep sName acc f).1 := by
  unfold embedFieldStep
  split
  · exact StateLE.refl acc.1
  · exact mono_embedFieldScan sName f.2.type acc

theorem stateLE_embedStructStep (acc : CheckState × Bool)
    (e : String × StructEntry) : StateLE acc.1 (embedStructStep acc e).1 := by
  unfold embedStructStep
  split
  · exact StateLE.refl acc.1
  · split
    · exact StateLE.refl acc.1
    · exact foldl_stateLE_pair _ (stateLE_embedFieldStep _) _ acc

theorem mono_embedIterationOnce (sm : SMap StructEntry) (st : CheckState) :
    StateLE st (embedIterationOnce sm st).1 :=
  foldl_stateLE_pair _ stateLE_embedStructStep sm (st, false)

theorem mono_embedLoop (sm : SMap StructEntry) (n : Nat) (st : CheckState) :
    StateLE st (embedLoop sm n st) := by
  induction n generalizing st with
  | zero => exact StateLE.refl st
  | succ k ih =>
    unfold embedLoop
    split
    · exact (mono_embedIterationOnce sm st).trans (ih _)
    · exact mono_embedIterationOnce sm st

theorem mono_embeddingPass (sm : SMap StructEntry) (st : CheckState) :
    StateLE st (embeddingPass sm st) :=
  mono_embedLoop sm 5 st

theorem stateLE_pointerInnerStep (smm : SMap (List String)) (iName : String)
    (ms : List String) (st : CheckState) (sName : String) :
    StateLE st (pointerInnerStep smm iName ms st sName) := by
  unfold pointerInnerStep
  split
  · split
    · exact stateLE_addImplementation st iName sName
    · exact StateLE.refl st
  · exact StateLE.refl st

theorem stateLE_pointerOuterStep (smm : SMap (List String)) (st : CheckState)
    (e : String × List String) : StateLE st (pointerOuterStep smm st e) := by
  unfold pointerOuterStep
  split
  · exact StateLE.refl st
  · exact foldl_stateLE _ (stateLE_pointerInnerStep smm e.1 e.2) _ st

theorem mono_pointerPass (imm smm : SMap (List String)) (st : CheckState) :
    StateLE st (pointerPass imm smm st) :=
  foldl_stateLE _ (stateLE_pointerOuterStep smm) imm st

/-! ### Generic fold preservation -/

theorem foldl_preserve {α β : Type} (f : CheckState → α → CheckState)
    (g : CheckState → β) (l : List α)
    (h : ∀ st a, a ∈ l → g (f st a) = g st)
    (st : CheckState) : g (l.foldl f st) = g st := by
  induction l generalizing st with
  | nil => rfl
  | cons a rest ih =>
    rw [List.foldl_cons, ih (fun st b hb => h st b (List.mem_cons_of_mem a hb)),
      h st a (List.mem_cons_self a rest)]

theorem foldl_preserve_iff {α : Type} (f : CheckState → α → CheckState)
    (P : CheckState → Prop) (l : List α)
    (h : ∀ st a, a ∈ l → (P (f st a) ↔ P st))
    (st : CheckState) : P (l.foldl f st) ↔ P st := by
  induction l generalizing st with
  | nil => exact Iff.rfl
  | cons a rest ih =>
    rw [List.foldl_cons]
    exact (ih (fun st b hb => h st b (List.mem_cons_of_mem a hb)) (f st a)).trans
      (h st a (List.mem_cons_self a rest))

/-! ### Exact coverage: the counting loop -/

theorem countFold (names : SSet) (ms : List String) (c : Nat) :
    ms.foldl (fun c m => if m ∈ names then c + 1 else c) c =
      c + ms.countP (fun m => decide (m ∈ names)) := by
  induction ms generalizing c with
  | nil => simp
  | cons a t ih =>
    rw [List.foldl_cons, ih, List.countP_cons]
    by_cases h : a ∈ names
    · simp only [h, if_true, decide_eq_true_eq, if_pos h]
      omega
    · simp only [if_neg h]
      rw [decide_eq_false h]
      simp

/-- `implementationRate === 1.0` holds exactly when every required method is
present in the collected struct-method set. -/
theorem countImplementedMethods_eq_length_iff (ms : List String) (names : SSet) :
    countImplementedMethods ms names = ms.length ↔ ∀ m ∈ ms, m ∈ names := by
  unfold countImplementedMethods
  rw [countFold names ms 0, Nat.zero_add, List.countP_eq_length]
  simp

/-! ### What the direct structural pass records -/

theorem structuralInnerStep_satisfiers_ne (iName : String) (ms : List String)
    (st : CheckState) (e : String × List String) (j : String) (hj : j ≠ iName) :
    satisfiers (structuralInnerStep iName ms st e) j = satisfiers st j := by
  unfold structuralInnerStep
  split
  · rfl
  · split
    · exact satisfiers_addImplementation_ne st iName e.1 j hj
    · rfl

theorem structuralInnerStep_implemented_ne (iName : String) (ms : List String)
    (st : CheckState) (e : String × List String) (j : String) (hj : j ≠ iName) :
    j ∈ (structuralInnerStep iName ms st e).implemented ↔ j ∈ st.implemented := by
  unfold structuralInnerStep
  split
  · exact Iff.rfl
  · split
    · rw [implemented_addImplementation, SSet.mem_add_iff]
      exact or_iff_right hj
    · exact Iff.rfl

theorem structuralInner_satisfiers_ne (iName : String) (ms : List String)
    (smm : SMap (List String)) (st : CheckState) (j : String) (hj : j ≠ iName) :
    satisfiers (structuralInner iName ms smm st) j = satisfiers st j :=
  foldl_preserve _ (fun st => satisfiers st j) smm
    (fun st e _ => structuralInnerStep_satisfiers_ne iName ms st e j hj) st

theorem structuralInner_implemented_ne (iName : String) (ms : List String)
    (smm : SMap (List String)) (st : CheckState) (j : String) (hj : j ≠ iName) :
    j ∈ (structuralInner iName ms smm st).implemented ↔ j ∈ st.implemented :=
  foldl_preserve_iff _ (fun st => j ∈ st.implemented) smm
    (fun st e _ => structuralInnerStep_implemented_ne iName ms st e j hj) st

theorem structuralOuterStep_satisfiers_ne (smm : SMap (List String))
    (st : CheckState) (e : String × List String) (j : String) (hj : j ≠ e.1) :
    satisfiers (structuralOuterStep smm st e) j = satisfiers st j := by
  unfold structuralOuterStep
  split
  · rfl
  · exact structuralInner_satisfiers_ne e.1 e.2 smm st j hj

theorem structuralOuterStep_implemented_ne (smm : SMap (List String))
    (st : CheckState) (e : String × List String) (j : String) (hj : j ≠ e.1) :
    j ∈ (structuralOuterStep smm st e).implemented ↔ j ∈ st.implemented := by
  unfold structuralOuterStep
  split
  · exact Iff.rfl
  · exact structuralInner_implemented_ne e.1 e.2 smm st j hj

/-- A fold over interface entries whose keys all differ from `iName` touches
neither the satisfier set recorded for `iName` nor its membership in
`implementedInterfaces`. -/
theorem structuralFold_preserve (smm : SMap (List String))
    (l : List (String × List String)) (iName : String)
    (hl : ∀ e ∈ l, e.1 ≠ iName) (st : CheckState) :
    satisfiers (l.foldl (structuralOuterStep smm) st) iName = satisfiers st iName ∧
      (iName ∈ (l.foldl (structuralOuterStep smm) st).implemented ↔
        iName ∈ st.implemented) := by
  induction l generalizing st with
  | nil => exact ⟨rfl, Iff.rfl⟩
  | cons e rest ih =>
    have he : iName ≠ e.1 := fun hh => hl e (List.mem_cons_self e rest) hh.symm
    rw [List.foldl_cons]
    obtain ⟨h1, h2⟩ := ih (fun e' he' => hl e' (List.mem_cons_of_mem e he')) (structuralOuterStep smm st e)
    exact ⟨h1.trans (structuralOuterStep_satisfiers_ne smm st e iName he),
      h2.trans (structuralOuterStep_implemented_ne smm st e iName he)⟩

theorem structuralInnerStep_eq_of_skip (iName : String) (ms : List String)
    (st : CheckState) (e : String × List String)
    (h : isSpecialKey e.1 = true ∨
      ((SMap.lookup st.impls iName).isSome = true ∧
        e.1 ∈ (SMap.lookup st.impls iName).getD [])) :
    structuralInnerStep iName ms st e = st := by
  unfold structuralInnerStep
  rw [if_pos h]

theorem structuralInnerStep_eq_of_add (iName : String) (ms : List String)
    (st : CheckState) (e : String × List String)
    (h : ¬(isSpecialKey e.1 = true ∨
      ((SMap.lookup st.impls iName).isSome = true ∧
        e.1 ∈ (SMap.lookup st.impls iName).getD [])))
    (hpm : ms.length ≠ 0 ∧
      countImplementedMethods ms (structMethodNames e.2) = ms.length) :
    structuralInnerStep iName ms st e = addImplementation st iName e.1 := by
  unfold structuralInnerStep
  rw [if_neg h, if_pos hpm]

theorem structuralInnerStep_eq_of_nomatch (iName : String) (ms : List String)
    (st : CheckState) (e : String × List String)
    (h : ¬(isSpecialKey e.1 = true ∨
      ((SMap.lookup st.impls iName).isSome = true ∧
        e.1 ∈ (SMap.lookup st.impls iName).getD [])))
    (hpm : ¬(ms.length ≠ 0 ∧
      countImplementedMethods ms (structMethodNames e.2) = ms.length)) :
    structuralInnerStep iName ms st e = st := by
  unfold structuralInnerStep
  rw [if_neg h, if_neg hpm]

/-- Membership in the satisfier set after the inner struct loop of the
direct structural pass: a struct name is recorded exactly when it was
already recorded or some entry of the struct-method map carries that
(non-marker) name with full coverage of the required methods. -/
theorem structuralInner_mem_iff (iName : String) (ms : List String)
    (smm : SMap (List String)) (st : CheckState) (sName : String) :
    sName ∈ satisfiers (structuralInner iName ms smm st) iName ↔
      (sName ∈ satisfiers st iName ∨
        ∃ e ∈ smm, e.1 = sName ∧ isSpecialKey sName = false ∧
          ms.length ≠ 0 ∧
          countImplementedMethods ms (structMethodNames e.2) = ms.length) := by
  induction smm generalizing st with
  | nil => simp [structuralInner]
  | cons e rest ih =>
    unfold structuralInner at ih ⊢
    rw [List.foldl_cons]
    by_cases hg : isSpecialKey e.1 = true ∨
        ((SMap.lookup st.impls iName).isSome = true ∧
          e.1 ∈ (SMap.lookup st.impls iName).getD [])
    · rw [structuralInnerStep_eq_of_skip iName ms st e hg, ih]
      constructor
      · rintro (h | h)
        · exact Or.inl h
        · obtain ⟨e', he', h1, h2, h3, h4⟩ := h
          exact Or.inr ⟨e', List.mem_cons_of_mem e he', h1, h2, h3, h4⟩
      · rintro (h | h)
        · exact Or.inl h
        · obtain ⟨e', he', h1, h2, h3, h4⟩ := h
          rcases List.mem_cons.mp he' with rfl | hmem
          · rcases hg with hsp | hrec
            · exact absurd (h1 ▸ hsp) (by simp [h2])
            · exact Or.inl (h1 ▸ hrec.2)
          · exact Or.inr ⟨e', hmem, h1, h2, h3, h4⟩
    · by_cases hpm : ms.length ≠ 0 ∧
          countImplementedMethods ms (structMethodNames e.2) = ms.length
      · rw [structuralInnerStep_eq_of_add iName ms st e hg hpm, ih]
        have hM : sName ∈ satisfiers (addImplementation st iName e.1) iName ↔
            (sName = e.1 ∨ sName ∈ satisfiers st iName) := by
          rw [satisfiers_addImplementation_self]
          exact SSet.mem_add_iff _ _ _
        rw [hM]
        have hnsp : isSpecialKey e.1 = false := by
          rcases Bool.eq_false_or_eq_true (isSpecialKey e.1) with h | h
          · exact absurd (Or.inl h) hg
          · exact h
        constructor
        · rintro ((rfl | h) | h)
          · exact Or.inr ⟨e, List.mem_cons_self e rest, rfl, hnsp, hpm.1, hpm.2⟩
          · exact Or.inl h
          · obtain ⟨e', he', h1, h2, h3, h4⟩ := h
            exact Or.inr ⟨e', List.mem_cons_of_mem e he', h1, h2, h3, h4⟩
        · rintro (h | h)
          · exact Or.inl (Or.inr h)
          · obtain ⟨e', he', h1, h2, h3, h4⟩ := h
            rcases List.mem_cons.mp he' with rfl | hmem
            · exact Or.inl (Or.inl h1.symm)
            · exact Or.inr ⟨e', hmem, h1, h2, h3, h4⟩
      · rw [structuralInnerStep_eq_of_nomatch iName ms st e hg hpm, ih]
        constructor
        · rintro (h | h)
          · exact Or.inl h
          · obtain ⟨e', he', h1, h2, h3, h4⟩ := h
            exact Or.inr ⟨e', List.mem_cons_of_mem e he', h1, h2, h3, h4⟩
        · rintro (h | h)
          · exact Or.inl h
          · obtain ⟨e', he', h1, h2, h3, h4⟩ := h
            rcases List.mem_cons.mp he' with rfl | hmem
            · exact absurd ⟨h3, h4⟩ hpm
            · exact Or.inr ⟨e', hmem, h1, h2, h3, h4⟩

/-- Full characterization of the direct structural pass at an interface with
distinct map keys: starting from a state where the interface is not yet
marked implemented, a struct name ends up recorded exactly when it was
already recorded or the struct-method map carries it (as a non-marker key)
with full coverage. -/
theorem structuralPass_mem_iff (imm smm : SMap (List String)) (st : CheckState)
    (iName sName : String) (ms : List String)
    (hnd : (SMap.keys imm).Nodup)
    (hlook : SMap.lookup imm iName = some ms)
    (hms : ms ≠ [])
    (hnotimpl : iName ∉ st.implemented) :
    sName ∈ satisfiers (structuralPass imm smm st) iName ↔
      (sName ∈ satisfiers st iName ∨
        ∃ e ∈ smm, e.1 = sName ∧ isSpecialKey sName = false ∧
          countImplementedMethods ms (structMethodNames e.2) = ms.length) := by
  obtain ⟨pre, post, heq, hpre, hpost⟩ := SMap.exists_split_of_lookup imm iName ms hnd hlook
  unfold structuralPass
  rw [heq, List.foldl_append, List.foldl_cons]
  obtain ⟨hsat_pre, himp_pre⟩ := structuralFold_preserve smm pre iName hpre st
  have hstep : structuralOuterStep smm (pre.foldl (structuralOuterStep smm) st) (iName, ms) =
      structuralInner iName ms smm (pre.foldl (structuralOuterStep smm) st) := by
    unfold structuralOuterStep
    rw [if_neg]
    push_neg
    refine ⟨fun h => hms (List.length_eq_zero.mp h), ?_⟩
    intro hmem
    exact hnotimpl (himp_pre.mp hmem)
  rw [hstep]
  obtain ⟨hsat_post, _⟩ := structuralFold_preserve smm post iName hpost
    (structuralInner iName ms smm (pre.foldl (structuralOuterStep smm) st))
  rw [hsat_post, structuralInner_mem_iff, hsat_pre]
  have hlen : ms.length ≠ 0 := fun h => hms (List.length_eq_zero.mp h)
  constructor
  · rintro (h | h)
    · exact Or.inl h
    · obtain ⟨e', he', h1, h2, _, h4⟩ := h
      exact Or.inr ⟨e', he', h1, h2, h4⟩
  · rintro (h | h)
    · exact Or.inl h
    · obtain ⟨e', he', h1, h2, h4⟩ := h
      exact Or.inr ⟨e', he', h1, h2, hlen, h4⟩

/-! ### What the explicit pass records -/

theorem explicitInnerFold_records (imm : SMap (List String)) (sName : String)
    (l : List String) (st : CheckState) (iName : String)
    (hmem : iName ∈ l) (hkey : (SMap.lookup imm iName).isSome = true) :
    sName ∈ satisfiers (l.foldl (explicitInnerStep imm sName) st) iName := by
  induction l generalizing st with
  | nil => simp at hmem
  | cons a rest ih =>
    rw [List.foldl_cons]
    by_cases ha : iName ∈ rest
    · exact ih (explicitInnerStep imm sName st a) ha
    · have haeq : a = iName := by
        rcases List.mem_cons.mp hmem with h | h
        · exact h.symm
        · exact absurd h ha
      subst haeq
      have hstep : explicitInnerStep imm sName st a = addImplementation st a sName := by
        unfold explicitInnerStep SMap.hasKey
        rw [if_pos hkey]
      rw [hstep]
      refine (foldl_stateLE _ (stateLE_explicitInnerStep imm sName) rest _).2.1 a sName ?_
      rw [satisfiers_addImplementation_self]
      exact SSet.mem_add_self _ _

/-- The explicit pass records a struct under every asserted interface name
known to the interface-method map, with no condition on the methods of the struct. -/
theorem explicitPass_records (imm : SMap (List String)) (sm : SMap StructEntry)
    (st : CheckState) (sName : String) (entry : StructEntry) (l : List String)
    (iName : String) (hmem : (sName, entry) ∈ sm)
    (hl : entry.implementsInterfaces = some l) (hi : iName ∈ l)
    (hkey : (SMap.lookup imm iName).isSome = true) :
    sName ∈ satisfiers (explicitPass imm sm st) iName := by
  induction sm generalizing st with
  | nil => simp at hmem
  | cons e rest ih =>
    unfold explicitPass at ih ⊢
    rw [List.foldl_cons]
    rcases List.mem_cons.mp hmem with heq | hmem'
    · have hstep : sName ∈ satisfiers (explicitStep imm st e) iName := by
        rw [← heq]
        unfold explicitStep
        simp only [hl]
        exact explicitInnerFold_records imm sName l st iName hi hkey
      exact (foldl_stateLE _ (stateLE_explicitStep imm) rest _).2.1 iName sName hstep
    · exact ih (explicitStep imm st e) hmem'

/-- The full pipeline only ever grows the state recorded by the explicit
pass. -/
theorem stateLE_check_from_explicit (imm smm : SMap (List String))
    (sm : SMap StructEntry) :
    StateLE (explicitPass imm sm ⟨[], []⟩)
      (checkInterfaceImplementations imm smm (some sm)) := by
  unfold checkInterfaceImplementations
  exact ((mono_structuralPass imm smm _).trans (mono_embeddingPass sm _)).trans
    (mono_pointerPass imm smm _)

/-! ### What the embedding pass propagates -/

theorem mem_keys_of_mem_satisfiers (st : CheckState) (i s : String)
    (h : s ∈ satisfiers st i) : i ∈ SMap.keys st.impls := by
  unfold satisfiers at h
  cases hl : SMap.lookup st.impls i with
  | none =>
    rw [hl] at h
    simp at h
  | some v =>
    refine (SMap.lookup_isSome_iff_mem_keys _ _).mp ?_
    rw [hl]
    rfl

theorem embedScanFold_mem (sName fieldType iName : String)
    (l : List (String × SSet)) (acc : CheckState × Bool)
    (hmem : ∃ v, (iName, v) ∈ l)
    (hcond : fieldType ∈ satisfiers acc.1 iName ∨ iName = fieldType) :
    sName ∈ satisfiers (l.foldl (embedScanStep sName fieldType) acc).1 iName := by
  induction l generalizing acc with
  | nil =>
    obtain ⟨v, hv⟩ := hmem
    simp at hv
  | cons e rest ih =>
    rw [List.foldl_cons]
    obtain ⟨v, hv⟩ := hmem
    rcases List.mem_cons.mp hv with heq | hmem'
    · have he1 : e.1 = iName := by rw [← heq]
      have hc : fieldType ∈ (SMap.lookup acc.1.impls e.1).getD [] ∨ e.1 = fieldType := by
        rw [he1]
        exact hcond
      by_cases hrec : (SMap.lookup acc.1.impls e.1).isSome = true ∧
          sName ∈ (SMap.lookup acc.1.impls e.1).getD []
      · have hstep : embedScanStep sName fieldType acc e = acc := by
          unfold embedScanStep
          rw [if_pos hc, if_neg (not_not_intro hrec)]
        rw [hstep]
        have hs : sName ∈ satisfiers acc.1 iName := by
          rw [← he1]
          exact hrec.2
        exact (foldl_stateLE_pair _ (stateLE_embedScanStep sName fieldType) rest acc).2.1
          iName sName hs
      · have hstep : embedScanStep sName fieldType acc e =
            (addImplementation acc.1 e.1 sName, true) := by
          unfold embedScanStep
          rw [if_pos hc, if_pos hrec]
        rw [hstep]
        have hs : sName ∈ satisfiers (addImplementation acc.1 e.1 sName) iName := by
          rw [← he1, satisfiers_addImplementation_self]
          exact SSet.mem_add_self _ _
        exact (foldl_stateLE_pair _ (stateLE_embedScanStep sName fieldType) rest _).2.1
          iName sName hs
    · refine ih (embedScanStep sName fieldType acc e) ⟨v, hmem'⟩ ?_
      rcases hcond with h | h
      · exact Or.inl ((stateLE_embedScanStep sName fieldType acc e).2.1 iName fieldType h)
      · exact Or.inr h

theorem embedFieldScan_mem (sName fieldType iName : String) (acc : CheckState × Bool)
    (hkey : iName ∈ SMap.keys acc.1.impls)
    (hcond : fieldType ∈ satisfiers acc.1 iName ∨ iName = fieldType) :
    sName ∈ satisfiers (embedFieldScan sName fieldType acc).1 iName := by
  unfold embedFieldScan
  refine embedScanFold_mem sName fieldType iName _ acc ?_ hcond
  obtain ⟨⟨k, w⟩, he, h1⟩ := (SMap.mem_keys _ _).mp hkey
  subst h1
  exact ⟨w, he⟩

theorem embedFieldFold_records (fs : List (String × FieldEntry)) (sName : String)
    (acc : CheckState × Bool) (fname : String) (fi : FieldEntry) (iName : String)
    (hfe : (fname, fi) ∈ fs) (hemb : fi.embedded = true)
    (hkey : iName ∈ SMap.keys acc.1.impls)
    (hcond : fi.type ∈ satisfiers acc.1 iName ∨ iName = fi.type) :
    sName ∈ satisfiers (fs.foldl (embedFieldStep sName) acc).1 iName := by
  induction fs generalizing acc with
  | nil => simp at hfe
  | cons f rest ih =>
    rw [List.foldl_cons]
    rcases List.mem_cons.mp hfe with heq | hmem'
    · have hstep : embedFieldStep sName acc f = embedFieldScan sName f.2.type acc := by
        unfold embedFieldStep
        rw [if_neg]
        rw [← heq]
        simp [hemb]
      rw [hstep]
      have hf2 : f.2 = fi := by rw [← heq]
      have hs : sName ∈ satisfiers (embedFieldScan sName f.2.type acc).1 iName := by
        rw [hf2]
        exact embedFieldScan_mem sName fi.type iName acc hkey hcond
      exact (foldl_stateLE_pair _ (stateLE_embedFieldStep sName) rest _).2.1 iName sName hs
    · refine ih (embedFieldStep sName acc f) hmem' ?_ ?_
      · exact (stateLE_embedFieldStep sName acc f).2.2 iName hkey
      · rcases hcond with h | h
        · exact Or.inl ((stateLE_embedFieldStep sName acc f).2.1 iName fi.type h)
        · exact Or.inr h

theorem embedStructFold_records (l : List (String × StructEntry))
    (acc : CheckState × Bool) (sName : String) (entry : StructEntry)
    (fs : SMap FieldEntry) (fname : String) (fi : FieldEntry) (iName : String)
    (hmem : (sName, entry) ∈ l) (hf : entry.fields = some fs)
    (hfe : (fname, fi) ∈ fs) (hemb : fi.embedded = true)
    (hkey : iName ∈ SMap.keys acc.1.impls)
    (hcond : fi.type ∈ satisfiers acc.1 iName ∨ iName = fi.type) :
    sName ∈ satisfiers (l.foldl embedStructStep acc).1 iName := by
  induction l generalizing acc with
  | nil => simp at hmem
  | cons e rest ih =>
    rw [List.foldl_cons]
    rcases List.mem_cons.mp hmem with heq | hmem'
    · have hlen : fs.length ≠ 0 := by
        intro h0
        rw [List.length_eq_zero.mp h0] at hfe
        simp at hfe
      have hstep : embedStructStep acc e = fs.foldl (embedFieldStep e.1) acc := by
        unfold embedStructStep
        rw [← heq]
        simp only [hf]
        rw [if_neg hlen]
      rw [hstep]
      have he1 : e.1 = sName := by rw [← heq]
      have hs : sName ∈ satisfiers (fs.foldl (embedFieldStep e.1) acc).1 iName := by
        rw [he1]
        exact embedFieldFold_records fs sName acc fname fi iName hfe hemb hkey hcond
      exact (foldl_stateLE_pair _ stateLE_embedStructStep rest _).2.1 iName sName hs
    · refine ih (embedStructStep acc e) hmem' ?_ ?_
      · exact (stateLE_embedStructStep acc e).2.2 iName hkey
      · rcases hcond with h | h
        · exact Or.inl ((stateLE_embedStructStep acc e).2.1 iName fi.type h)
        · exact Or.inr h

/-- The embedding fixpoint pass propagates satisfaction to a struct with an
embedded field whose declared type is already recorded as a satisfier (or
whose declared type is the interface name itself, the interface being
already recorded under some satisfier). -/
theorem embeddingPass_records (sm : SMap StructEntry) (st : CheckState)
    (sName : String) (entry : StructEntry) (fs : SMap FieldEntry)
    (fname : String) (fi : FieldEntry) (iName : String)
    (hmem : (sName, entry) ∈ sm) (hf : entry.fields = some fs)
    (hfe : (fname, fi) ∈ fs) (hemb : fi.embedded = true)
    (hkey : iName ∈ SMap.keys st.impls)
    (hcond : fi.type ∈ satisfiers st iName ∨ iName = fi.type) :
    sName ∈ satisfiers (embeddingPass sm st) iName := by
  have honce : sName ∈ satisfiers (embedIterationOnce sm st).1 iName :=
    embedStructFold_records sm (st, false) sName entry fs fname fi iName
      hmem hf hfe hemb hkey hcond
  unfold embeddingPass embedLoop
  split
  · exact (mono_embedLoop sm 4 _).2.1 iName sName honce
  · exact honce

/-! ### The pointer-reconciliation pass: preservation lemmas -/

theorem collectPointerReceivers_eq_nil (smm : SMap (List String))
    (h : ∀ e ∈ smm, jsStartsWith e.1 "*" = false) :
    collectPointerReceivers smm = [] := by
  unfold collectPointerReceivers
  induction smm with
  | nil => rfl
  | cons e rest ih =>
    rw [List.foldl_cons]
    have h1 := h e (List.mem_cons_self e rest)
    simp only [h1, Bool.false_eq_true, if_false]
    exact ih (fun e' he' => h e' (List.mem_cons_of_mem e he'))

/-- On a struct-method map none of whose keys begins with a star, the
pointer-reconciliation pass is the identity. -/
theorem pointerPass_id (imm smm : SMap (List String)) (st : CheckState)
    (h : ∀ e ∈ smm, jsStartsWith e.1 "*" = false) :
    pointerPass imm smm st = st := by
  have hr := collectPointerReceivers_eq_nil smm h
  unfold pointerPass
  induction imm generalizing st with
  | nil => rfl
  | cons e rest ih =>
    rw [List.foldl_cons]
    have hstep : pointerOuterStep smm st e = st := by
      unfold pointerOuterStep
      split
      · rfl
      · rw [hr]
        rfl
    rw [hstep]
    exact ih st

theorem pointerInnerStep_satisfiers_ne (smm : SMap (List String)) (iName : String)
    (ms : List String) (st : CheckState) (sName j : String) (hj : j ≠ iName) :
    satisfiers (pointerInnerStep smm iName ms st sName) j = satisfiers st j := by
  unfold pointerInnerStep
  split
  · split
    · exact satisfiers_addImplementation_ne st iName sName j hj
    · rfl
  · rfl

theorem pointerInnerStep_implemented_ne (smm : SMap (List String)) (iName : String)
    (ms : List String) (st : CheckState) (sName j : String) (hj : j ≠ iName) :
    j ∈ (pointerInnerStep smm iName ms st sName).implemented ↔ j ∈ st.implemented := by
  unfold pointerInnerStep
  split
  · split
    · rw [implemented_addImplementation, SSet.mem_add_iff]
      exact or_iff_right hj
    · exact Iff.rfl
  · exact Iff.rfl

theorem pointerOuterStep_satisfiers_ne (smm : SMap (List String)) (st : CheckState)
    (e : String × List String) (j : String) (hj : j ≠ e.1) :
    satisfiers (pointerOuterStep smm st e) j = satisfiers st j := by
  unfold pointerOuterStep
  split
  · rfl
  · exact foldl_preserve _ (fun st => satisfiers st j) _
      (fun st a _ => pointerInnerStep_satisfiers_ne smm e.1 e.2 st a j hj) st

theorem pointerOuterStep_implemented_ne (smm : SMap (List String)) (st : CheckState)
    (e : String × List String) (j : String) (hj : j ≠ e.1) :
    j ∈ (pointerOuterStep smm st e).implemented ↔ j ∈ st.implemented := by
  unfold pointerOuterStep
  split
  · exact Iff.rfl
  · exact foldl_preserve_iff _ (fun st => j ∈ st.implemented) _
      (fun st a _ => pointerInnerStep_implemented_ne smm e.1 e.2 st a j hj) st

theorem pointerFold_preserve (smm : SMap (List String))
    (l : List (String × List String)) (iName : String)
    (hl : ∀ e ∈ l, e.1 ≠ iName) (st : CheckState) :
    satisfiers (l.foldl (pointerOuterStep smm) st) iName = satisfiers st iName ∧
      (iName ∈ (l.foldl (pointerOuterStep smm) st).implemented ↔
        iName ∈ st.implemented) := by
  induction l generalizing st with
  | nil => exact ⟨rfl, Iff.rfl⟩
  | cons e rest ih =>
    have he : iName ≠ e.1 := fun hh => hl e (List.mem_cons_self e rest) hh.symm
    rw [List.foldl_cons]
    obtain ⟨h1, h2⟩ := ih (fun e' he' => hl e' (List.mem_cons_of_mem e he'))
      (pointerOuterStep smm st e)
    exact ⟨h1.trans (pointerOuterStep_satisfiers_ne smm st e iName he),
      h2.trans (pointerOuterStep_implemented_ne smm st e iName he)⟩

/-! ### An interface with an empty required-method set -/

theorem structuralPass_empty_iface (imm smm : SMap (List String)) (st : CheckState)
    (emptyIface : String) (hnd : (SMap.keys imm).Nodup)
    (hlook : SMap.lookup imm emptyIface = some []) :
    satisfiers (structuralPass imm smm st) emptyIface = satisfiers st emptyIface ∧
      (emptyIface ∈ (structuralPass imm smm st).implemented ↔
        emptyIface ∈ st.implemented) := by
  obtain ⟨pre, post, heq, hpre, hpost⟩ :=
    SMap.exists_split_of_lookup imm emptyIface [] hnd hlook
  unfold structuralPass
  rw [heq, List.foldl_append, List.foldl_cons]
  have hstep : structuralOuterStep smm (pre.foldl (structuralOuterStep smm) st)
      (emptyIface, []) = pre.foldl (structuralOuterStep smm) st := by
    unfold structuralOuterStep
    exact if_pos (Or.inl rfl)
  rw [hstep]
  obtain ⟨h1, h2⟩ := structuralFold_preserve smm pre emptyIface hpre st
  obtain ⟨h3, h4⟩ := structuralFold_preserve smm post emptyIface hpost _
  exact ⟨h3.trans h1, h4.trans h2⟩

theorem pointerPass_empty_iface (imm smm : SMap (List String)) (st : CheckState)
    (emptyIface : String) (hnd : (SMap.keys imm).Nodup)
    (hlook : SMap.lookup imm emptyIface = some []) :
    satisfiers (pointerPass imm smm st) emptyIface = satisfiers st emptyIface ∧
      (emptyIface ∈ (pointerPass imm smm st).implemented ↔
        emptyIface ∈ st.implemented) := by
  obtain ⟨pre, post, heq, hpre, hpost⟩ :=
    SMap.exists_split_of_lookup imm emptyIface [] hnd hlook
  unfold pointerPass
  rw [heq, List.foldl_append, List.foldl_cons]
  have hstep : pointerOuterStep smm (pre.foldl (pointerOuterStep smm) st)
      (emptyIface, []) = pre.foldl (pointerOuterStep smm) st := by
    unfold pointerOuterStep
    exact if_pos (Or.inl rfl)
  rw [hstep]
  obtain ⟨h1, h2⟩ := pointerFold_preserve smm pre emptyIface hpre st
  obtain ⟨h3, h4⟩ := pointerFold_preserve smm post emptyIface hpost _
  exact ⟨h3.trans h1, h4.trans h2⟩

/-! ### An interface never passed to `addImplementation` stays unrecorded -/

/-- The interface name has never entered the state: not in
`implementedInterfaces` and not a key of `interfaceImplementations`. -/
def NotTouched (emptyIface : String) (st : CheckState) : Prop :=
  emptyIface ∉ st.implemented ∧ emptyIface ∉ SMap.keys st.impls

theorem foldl_invariant {α : Type} (f : CheckState → α → CheckState)
    (P : CheckState → Prop) (l : List α)
    (hstep : ∀ st a, a ∈ l → P st → P (f st a)) (st : CheckState) (h : P st) :
    P (l.foldl f st) := by
  induction l generalizing st with
  | nil => exact h
  | cons a rest ih =>
    rw [List.foldl_cons]
    exact ih (fun st b hb => hstep st b (List.mem_cons_of_mem a hb)) _
      (hstep st a (List.mem_cons_self a rest) h)

theorem foldl_invariant_pair {α β : Type} (f : CheckState × β → α → CheckState × β)
    (P : CheckState → Prop) (l : List α)
    (hstep : ∀ acc a, a ∈ l → P acc.1 → P (f acc a).1) (acc : CheckState × β)
    (h : P acc.1) : P (l.foldl f acc).1 := by
  induction l generalizing acc with
  | nil => exact h
  | cons a rest ih =>
    rw [List.foldl_cons]
    exact ih (fun acc b hb => hstep acc b (List.mem_cons_of_mem a hb)) _
      (hstep acc a (List.mem_cons_self a rest) h)

theorem notTouched_addImplementation (st : CheckState) (emptyIface iName sName : String)
    (hne : iName ≠ emptyIface) (h : NotTouched emptyIface st) :
    NotTouched emptyIface (addImplementation st iName sName) := by
  constructor
  · rw [implemented_addImplementation]
    intro hmem
    rcases (SSet.mem_add_iff _ _ _).mp hmem with heq | hm
    · exact hne heq.symm
    · exact h.1 hm
  · intro hmem
    rcases (mem_keys_impls_addImplementation st iName sName emptyIface).mp hmem with heq | hm
    · exact hne heq.symm
    · exact h.2 hm

theorem notTouched_explicitPass (imm : SMap (List String)) (sm : SMap StructEntry)
    (emptyIface : String)
    (hassert : ∀ e ∈ sm, ∀ l, e.2.implementsInterfaces = some l → emptyIface ∉ l)
    (st : CheckState) (h : NotTouched emptyIface st) :
    NotTouched emptyIface (explicitPass imm sm st) := by
  unfold explicitPass
  refine foldl_invariant _ _ sm ?_ st h
  intro st e he hst
  unfold explicitStep
  cases hl : e.2.implementsInterfaces with
  | none => exact hst
  | some l =>
    refine foldl_invariant _ _ l ?_ st hst
    intro st iName hi hst
    unfold explicitInnerStep
    split
    · refine notTouched_addImplementation st emptyIface iName e.1 ?_ hst
      intro heq
      exact hassert e he l hl (heq ▸ hi)
    · exact hst

theorem notTouched_structuralPass (imm smm : SMap (List String))
    (emptyIface : String) (hnd : (SMap.keys imm).Nodup)
    (hlook : SMap.lookup imm emptyIface = some [])
    (st : CheckState) (h : NotTouched emptyIface st) :
    NotTouched emptyIface (structuralPass imm smm st) := by
  unfold structuralPass
  refine foldl_invariant _ _ imm ?_ st h
  intro st e he hst
  unfold structuralOuterStep
  split
  · exact hst
  · rename_i hcond
    have hne : e.1 ≠ emptyIface := by
      intro heq
      have : SMap.lookup imm e.1 = some e.2 :=
        SMap.lookup_eq_some_of_mem imm e.1 e.2 hnd he
      rw [heq, hlook] at this
      injection this with hv
      exact hcond (Or.inl (by rw [← hv]; rfl))
    refine foldl_invariant _ _ smm ?_ st hst
    intro st a _ hst
    unfold structuralInnerStep
    split
    · exact hst
    · split
      · exact notTouched_addImplementation st emptyIface e.1 a.1 hne hst
      · exact hst

theorem notTouched_embedFieldScan (sName fieldType emptyIface : String)
    (acc : CheckState × Bool) (h : NotTouched emptyIface acc.1) :
    NotTouched emptyIface (embedFieldScan sName fieldType acc).1 := by
  unfold embedFieldScan
  refine foldl_invariant_pair _ _ acc.1.impls ?_ acc h
  intro acc' e he hacc
  have hne : e.1 ≠ emptyIface := by
    intro heq
    exact h.2 (heq ▸ ((SMap.mem_keys _ _).mpr ⟨e, he, rfl⟩))
  unfold embedScanStep
  split
  · split
    · exact notTouched_addImplementation acc'.1 emptyIface e.1 sName hne hacc
    · exact hacc
  · exact hacc

theorem notTouched_embeddingPass (sm : SMap StructEntry) (emptyIface : String)
    (st : CheckState) (h : NotTouched emptyIface st) :
    NotTouched emptyIface (embeddingPass sm st) := by
  have honce : ∀ st, NotTouched emptyIface st →
      NotTouched emptyIface (embedIterationOnce sm st).1 := by
    intro st h
    unfold embedIterationOnce
    refine foldl_invariant_pair _ _ sm ?_ (st, false) h
    intro acc e _ hacc
    unfold embedStructStep
    split
    · exact hacc
    · split
      · exact hacc
      · refine foldl_invariant_pair _ _ _ ?_ acc hacc
        intro acc' f _ hacc'
        unfold embedFieldStep
        split
        · exact hacc'
        · exact notTouched_embedFieldScan e.1 f.2.type emptyIface acc' hacc'
  unfold embeddingPass
  generalize 5 = n
  induction n generalizing st with
  | zero => exact h
  | succ k ih =>
    unfold embedLoop
    split
    · exact ih _ (honce st h)
    · exact honce st h

theorem notTouched_pointerPass (imm smm : SMap (List String))
    (emptyIface : String) (hnd : (SMap.keys imm).Nodup)
    (hlook : SMap.lookup imm emptyIface = some [])
    (st : CheckState) (h : NotTouched emptyIface st) :
    NotTouched emptyIface (pointerPass imm smm st) := by
  unfold pointerPass
  refine foldl_invariant _ _ imm ?_ st h
  intro st e he hst
  unfold pointerOuterStep
  split
  · exact hst
  · rename_i hcond
    have hne : e.1 ≠ emptyIface := by
      intro heq
      have : SMap.lookup imm e.1 = some e.2 :=
        SMap.lookup_eq_some_of_mem imm e.1 e.2 hnd he
      rw [heq, hlook] at this
      injection this with hv
      exact hcond (Or.inl (by rw [← hv]; rfl))
    refine foldl_invariant _ _ _ ?_ st hst
    intro st a _ hst
    unfold pointerInnerStep
    split
    · split
      · exact notTouched_addImplementation st emptyIface e.1 a hne hst
      · exact hst
    · exact hst

theorem satisfiers_eq_nil_of_notKey (st : CheckState) (emptyIface : String)
    (h : emptyIface ∉ SMap.keys st.impls) : satisfiers st emptyIface = [] := by
  unfold satisfiers
  cases hl : SMap.lookup st.impls emptyIface with
  | none => rfl
  | some v =>
    exact absurd ((SMap.lookup_isSome_iff_mem_keys _ _).mp (by rw [hl]; rfl)) h

/-! ### The recorded embedded-interface name -/

theorem parseInterfaceFold_snd (fields : List GoField)
    (acc : List String × Option String) :
    (fields.foldl parseInterfaceFieldStep acc).2 =
      if (lastEmbeddedName fields).isSome then lastEmbeddedName fields
      else acc.2 := by
  induction fields generalizing acc with
  | nil => simp [lastEmbeddedName]
  | cons f rest ih =>
    rw [List.foldl_cons, ih]
    by_cases h1 : f.names.length > 0
    · have hstep : parseInterfaceFieldStep acc f = (acc.1 ++ f.names, acc.2) := by
        unfold parseInterfaceFieldStep
        rw [if_pos h1]
      have hfm : lastEmbeddedName (f :: rest) = lastEmbeddedName rest := by
        unfold lastEmbeddedName
        rw [List.filterMap_cons]
        simp only [if_pos h1]
      rw [hstep, hfm]
    · by_cases h2 : (getTypeNameFromExpr f.type).1 = ""
      · have hstep : parseInterfaceFieldStep acc f = acc := by
          unfold parseInterfaceFieldStep
          rw [if_neg h1, if_neg (not_not_intro h2)]
        have hfm : lastEmbeddedName (f :: rest) = lastEmbeddedName rest := by
          unfold lastEmbeddedName
          rw [List.filterMap_cons]
          simp only [if_neg h1, if_pos h2]
        rw [hstep, hfm]
      · have hstep : parseInterfaceFieldStep acc f =
            (acc.1, some (getTypeNameFromExpr f.type).1) := by
          unfold parseInterfaceFieldStep
          rw [if_neg h1, if_pos h2]
        rw [hstep]
        unfold lastEmbeddedName
        rw [List.filterMap_cons]
        simp only [if_neg h1, if_neg h2]
        cases hfm : List.filterMap
            (fun f => if f.names.length > 0 then none
              else if (getTypeNameFromExpr f.type).1 = "" then none
              else some (getTypeNameFromExpr f.type).1) rest with
        | nil => simp
        | cons b l =>
          rw [List.getLast?_cons_cons]
          have hsome : ((b :: l).getLast?).isSome = true := by
            rw [List.getLast?_eq_getLast_of_ne_nil (List.cons_ne_nil b l)]
            rfl
          rw [if_pos hsome, if_pos hsome]

/-! ### Directory scanning lemmas -/

theorem processDirFold_keys (dir : String) (l : List (Option GoFileContent))
    (res : SMap PkgInfoM) (k : String)
    (hk : k ∈ SMap.keys (l.foldl (processDirStep dir) res)) :
    k = dir ∨ k ∈ SMap.keys res := by
  induction l generalizing res with
  | nil => exact Or.inr hk
  | cons pf rest ih =>
    rw [List.foldl_cons] at hk
    rcases ih (processDirStep dir res pf) hk with h | h
    · exact Or.inl h
    · unfold processDirStep at h
      cases pf with
      | none => exact Or.inr h
      | some c =>
        cases hl : SMap.lookup res dir with
        | none =>
          rw [hl] at h
          rcases (SMap.mem_keys_setV res dir k _).mp h with h' | h'
          · exact Or.inl h'
          · exact Or.inr h'
        | some p =>
          rw [hl] at h
          rcases (SMap.mem_keys_setV res dir k _).mp h with h' | h'
          · exact Or.inl h'
          · exact Or.inr h'

theorem processDir_keys (fs : DirFS) (dir : String)
    (acc : SMap PkgInfoM × List String) (k : String)
    (hk : k ∈ SMap.keys (processDir fs dir acc).1) :
    k = dir ∨ k ∈ SMap.keys acc.1 := by
  unfold processDir at hk
  split at hk
  · exact Or.inr hk
  · exact processDirFold_keys dir (fs.filesOf dir) acc.1 k hk

theorem processDir_scanned (fs : DirFS) (dir : String)
    (acc : SMap PkgInfoM × List String) (h : dir ∉ acc.2) :
    (processDir fs dir acc).2 = acc.2 ++ [dir] := by
  unfold processDir
  rw [if_neg h]

theorem explicitPass_id (imm : SMap (List String)) (sm : SMap StructEntry)
    (st : CheckState) (h : ∀ e ∈ sm, e.2.implementsInterfaces = none) :
    explicitPass imm sm st = st := by
  unfold explicitPass
  induction sm generalizing st with
  | nil => rfl
  | cons e rest ih =>
    rw [List.foldl_cons]
    have hstep : explicitStep imm st e = st := by
      unfold explicitStep
      rw [h e (List.mem_cons_self e rest)]
    rw [hstep]
    exact ih st (fun e' he' => h e' (List.mem_cons_of_mem e he'))

/-! ## The claims -/

/-- C1: in the direct structural pass, for an interface whose required-
method set is non-empty and a struct whose pair with it is not already
recorded (and whose key is not one of the internal marker names), the
struct is recorded as a satisfier exactly when every required method name
is present in its collected method-name set — coverage ratio exactly 1.0.
In particular a struct covering 4 of 5 required methods (ratio 0.8) is
never recorded; the witness instantiates exactly that boundary. -/
theorem C1_structural_pass_exact_coverage
    (imm smm : SMap (List String)) (st : CheckState) (iName sName : String)
    (ms smethods : List String)
    (hndImm : (SMap.keys imm).Nodup) (hndSmm : (SMap.keys smm).Nodup)
    (hlook : SMap.lookup imm iName = some ms) (hms : ms ≠ [])
    (hnotimpl : iName ∉ st.implemented)
    (hsmm : SMap.lookup smm sName = some smethods)
    (hspec : isSpecialKey sName = false)
    (hnotrec : sName ∉ satisfiers st iName) :
    sName ∈ satisfiers (structuralPass imm smm st) iName ↔
      ∀ m ∈ ms, m ∈ structMethodNames smethods := by
  rw [structuralPass_mem_iff imm smm st iName sName ms hndImm hlook hms hnotimpl]
  constructor
  · rintro (h | h)
    · exact absurd h hnotrec
    · obtain ⟨e, he, h1, _, h4⟩ := h
      have hl : SMap.lookup smm e.1 = some e.2 :=
        SMap.lookup_eq_some_of_mem smm e.1 e.2 hndSmm he
      rw [h1, hsmm] at hl
      injection hl with hv
      rw [← hv] at h4
      exact (countImplementedMethods_eq_length_iff ms _).mp h4
  · intro h
    exact Or.inr ⟨(sName, smethods),
      SMap.mem_of_lookup_eq_some smm sName smethods hsmm, rfl, hspec,
      (countImplementedMethods_eq_length_iff ms _).mpr h⟩

/-- Witness for C1 at the 0.8 boundary: an interface requiring five methods
and a struct declaring four of them is not recorded by the structural
pass. -/
theorem C1_structural_pass_exact_coverage_witness :
    "S" ∉ satisfiers
      (structuralPass [("I", ["a", "b", "c", "d", "e"])]
        [("S", ["a", "b", "c", "d", "__struct_def__"])] ⟨[], []⟩) "I" := by
  intro hmem
  have h := (C1_structural_pass_exact_coverage
    [("I", ["a", "b", "c", "d", "e"])] [("S", ["a", "b", "c", "d", "__struct_def__"])]
    ⟨[], []⟩ "I" "S" ["a", "b", "c", "d", "e"] ["a", "b", "c", "d", "__struct_def__"]
    (by decide) (by decide) (by decide) (by decide) (by decide) (by decide)
    (by decide) (by decide)).mp hmem
  exact absurd (h "e" (by decide)) (by decide)

/-- C2: the explicit pass honors comment-asserted interface names
unconditionally: a struct carrying an asserted name that is known to the
interface-method map appears in the satisfier set of that interface in the
full check result, with no requirement whatsoever on its methods. -/
theorem C2_explicit_assertion_unconditional
    (imm smm : SMap (List String)) (sm : SMap StructEntry)
    (sName iName : String) (entry : StructEntry) (l : List String)
    (hmem : (sName, entry) ∈ sm)
    (hl : entry.implementsInterfaces = some l) (hi : iName ∈ l)
    (hkey : (SMap.lookup imm iName).isSome = true) :
    sName ∈ satisfiers (checkInterfaceImplementations imm smm (some sm)) iName :=
  (stateLE_check_from_explicit imm smm sm).2.1 iName sName
    (explicitPass_records imm sm ⟨[], []⟩ sName entry l iName hmem hl hi hkey)

/-- Witness for C2: a struct with zero methods asserting an interface with
one required method is still recorded as its satisfier. -/
theorem C2_explicit_assertion_unconditional_witness :
    "S" ∈ satisfiers
      (checkInterfaceImplementations [("Bar", ["M"])] [("S", ["__struct_def__"])]
        (some [("S", ⟨some ["Bar"], some []⟩)])) "Bar" :=
  C2_explicit_assertion_unconditional [("Bar", ["M"])] [("S", ["__struct_def__"])]
    [("S", ⟨some ["Bar"], some []⟩)] "S" "Bar" ⟨some ["Bar"], some []⟩ ["Bar"]
    (by decide) rfl (by decide) (by decide)

/-- C3: in a package table with no comment assertions (as `getStructsInfo`
builds), an interface `Reader` requiring exactly `Read`, a struct `Base`
whose own collected method set contains `Read`, and a struct `File` with an
unnamed embedded field of type `Base`, the full check reports `File` as a
satisfier of `Reader`, without any requirement on the methods of `File`. -/
theorem C3_embedding_propagation
    (imm smm : SMap (List String)) (sm : SMap StructEntry)
    (baseMethods : List String) (fentry : StructEntry) (fs : SMap FieldEntry)
    (fname : String) (fi : FieldEntry)
    (hndImm : (SMap.keys imm).Nodup)
    (hreader : SMap.lookup imm "Reader" = some ["Read"])
    (hbase : SMap.lookup smm "Base" = some baseMethods)
    (hread : "Read" ∈ structMethodNames baseMethods)
    (hnoexpl : ∀ e ∈ sm, e.2.implementsInterfaces = none)
    (hfile : ("File", fentry) ∈ sm) (hf : fentry.fields = some fs)
    (hfe : (fname, fi) ∈ fs) (hemb : fi.embedded = true)
    (hft : fi.type = "Base") :
    "File" ∈ satisfiers (checkInterfaceImplementations imm smm (some sm)) "Reader" := by
  have hexp : explicitPass imm sm ⟨[], []⟩ = ⟨[], []⟩ :=
    explicitPass_id imm sm ⟨[], []⟩ hnoexpl
  have hbaseRec : "Base" ∈ satisfiers (structuralPass imm smm ⟨[], []⟩) "Reader" := by
    rw [structuralPass_mem_iff imm smm ⟨[], []⟩ "Reader" "Base" ["Read"] hndImm hreader
      (by decide) (by decide)]
    refine Or.inr ⟨("Base", baseMethods),
      SMap.mem_of_lookup_eq_some smm "Base" baseMethods hbase, rfl, by decide, ?_⟩
    rw [countImplementedMethods_eq_length_iff]
    intro m hm
    have hm' : m = "Read" := by simpa using hm
    rw [hm']
    exact hread
  have hkey : "Reader" ∈ SMap.keys (structuralPass imm smm ⟨[], []⟩).impls :=
    mem_keys_of_mem_satisfiers _ _ _ hbaseRec
  have hfileRec : "File" ∈
      satisfiers (embeddingPass sm (structuralPass imm smm ⟨[], []⟩)) "Reader" :=
    embeddingPass_records sm _ "File" fentry fs fname fi "Reader" hfile hf hfe hemb hkey
      (Or.inl (by rw [hft]; exact hbaseRec))
  show "File" ∈ satisfiers (pointerPass imm smm
    (embeddingPass sm (structuralPass imm smm (explicitPass imm sm ⟨[], []⟩)))) "Reader"
  rw [hexp]
  exact (mono_pointerPass imm smm _).2.1 "Reader" "File" hfileRec

/-- Witness for C3: the literal spec scenario. -/
theorem C3_embedding_propagation_witness :
    "File" ∈ satisfiers
      (checkInterfaceImplementations [("Reader", ["Read"])]
        [("Base", ["Read", "__struct_def__"]), ("File", ["__struct_def__"])]
        (some [("Base", ⟨none, some []⟩),
          ("File", ⟨none, some [("Base", ⟨"Base", true⟩)]⟩)])) "Reader" :=
  C3_embedding_propagation [("Reader", ["Read"])]
    [("Base", ["Read", "__struct_def__"]), ("File", ["__struct_def__"])]
    [("Base", ⟨none, some []⟩), ("File", ⟨none, some [("Base", ⟨"Base", true⟩)]⟩)]
    ["Read", "__struct_def__"] ⟨none, some [("Base", ⟨"Base", true⟩)]⟩
    [("Base", ⟨"Base", true⟩)] "Base" ⟨"Base", true⟩
    (by decide) (by decide) (by decide) (by decide) (by decide) (by decide)
    rfl (by decide) (by decide) (by decide)

/-- C4: the extractor strips pointer indirection from the receiver type and
keeps pointer-ness only in the `isPointer` flag, so a `Read` declared with
receiver `*File` is keyed under `File`; on the resulting table the check
reports `File` as satisfying `Reader`. -/
theorem C4_pointer_receiver_satisfaction :
    extractMethodImpl (GoExpr.star (GoExpr.ident "File")) "Read" =
        some ⟨"File", "Read", true⟩ ∧
      getImplementations [⟨"File", "Read", true⟩] ["File"] =
        [("File", ["Read", "__struct_def__"])] ∧
      "File" ∈ satisfiers
        (checkInterfaceImplementations [("Reader", ["Read"])]
          (getImplementations [⟨"File", "Read", true⟩] ["File"])
          (some (getStructsInfo [⟨"File", []⟩]))) "Reader" := by
  decide

/-- C5: on the slow path (no valid cache entry for the file or its
package), every failure mode — parser not ready, binary path unset, file
missing, parser process failure, undecodable JSON output, or an invalid
decoded value — makes `parseGoFile` return the literal empty result; the model is a total function, mirroring the
try/catch wrappers that stop any fault at the boundary. -/
theorem C5_parse_failure_returns_empty
    (env : ParseEnv) (st : ParserCaches) (filePath : String) (now : Nat)
    (hfc : ¬ fileCacheValid st filePath now)
    (hpc : ¬ pkgCacheValid st (env.dirOf filePath) now)
    (hfail : env.parserReady = false ∨ env.parserBinSet = false ∨
      env.fileOnDisk = false ∨ env.outcome = ParseOutcome.execError ∨
      env.outcome = ParseOutcome.jsonError ∨
      env.outcome = ParseOutcome.invalidResult) :
    (parseGoFile env st filePath now).result = emptyGoAstResult := by
  unfold parseGoFile
  rw [if_neg hfc]
  unfold parseGoFileSlow
  rw [if_neg (show ¬ pkgCacheValid
      { st with packageCache := SMap.setV st.packageCache filePath (env.dirOf filePath) }
      (env.dirOf filePath) now from hpc)]
  by_cases h1 : env.parserReady = false
  · rw [if_pos h1]
  · rw [if_neg h1]
    by_cases h2 : env.parserBinSet = false
    · rw [if_pos h2]
    · rw [if_neg h2]
      by_cases h3 : env.fileOnDisk = false
      · rw [if_pos h3]
      · rw [if_neg h3]
        have hout : env.outcome = ParseOutcome.execError ∨
            env.outcome = ParseOutcome.jsonError ∨
            env.outcome = ParseOutcome.invalidResult := by
          rcases hfail with h | h | h | h | h | h
          · exact absurd h h1
          · exact absurd h h2
          · exact absurd h h3
          · exact Or.inl h
          · exact Or.inr (Or.inl h)
          · exact Or.inr (Or.inr h)
        rcases hout with h | h | h <;> rw [h]

/-- Witness for C5: fresh caches, parser unavailable. -/
theorem C5_parse_failure_returns_empty_witness :
    (parseGoFile ⟨false, false, false, fun _ => "d", ParseOutcome.execError⟩
      emptyCaches "d/f.go" 0).result = emptyGoAstResult :=
  C5_parse_failure_returns_empty
    ⟨false, false, false, fun _ => "d", ParseOutcome.execError⟩
    emptyCaches "d/f.go" 0 (by decide) (by decide) (Or.inl rfl)

/-- C6 counterexample: with an unchanged file whose parse yields zero
packages, nothing is cached, and the second of two back-to-back calls
(no intervening change or invalidation) executes the external parser
again — refuting the claim that the second call is always served from the
cache without re-invoking extraction. -/
theorem C6_counterexample_zero_packages_reparsed :
    (parseGoFile ⟨true, true, true, fun _ => "d", ParseOutcome.ok ⟨[]⟩⟩
      (parseGoFile ⟨true, true, true, fun _ => "d", ParseOutcome.ok ⟨[]⟩⟩
        emptyCaches "d/f.go" 1000).caches "d/f.go" 1001).parserInvoked = true := by
  decide

/-- C6 amended: when the first call actually parses the file and obtains at
least one package, a second call within the file-cache TTL with the same
environment (no file change, no invalidation) returns the identical result
and is served from the file cache without executing the parser; a parse
with zero packages is not cached (see the counterexample). -/
theorem C6_cache_idempotence
    (env : ParseEnv) (st : ParserCaches) (filePath : String) (t0 t1 : Nat)
    (r : GoAstResultM)
    (hfc : ¬ fileCacheValid st filePath t0)
    (hpc : ¬ pkgCacheValid st (env.dirOf filePath) t0)
    (hready : env.parserReady = true) (hbin : env.parserBinSet = true)
    (hdisk : env.fileOnDisk = true) (hout : env.outcome = ParseOutcome.ok r)
    (hpkgs : 0 < r.packages.length)
    (httl : t1 - t0 < fileCacheTimeToLive) :
    (parseGoFile env (parseGoFile env st filePath t0).caches filePath t1).result =
        (parseGoFile env st filePath t0).result ∧
      (parseGoFile env (parseGoFile env st filePath t0).caches filePath
          t1).parserInvoked = false := by
  have h1 : parseGoFile env st filePath t0 =
      ⟨r,
        { st with
          packageCache := SMap.setV st.packageCache filePath (env.dirOf filePath),
          parseCache := SMap.setV st.parseCache (env.dirOf filePath) r,
          cacheTimes := SMap.setV st.cacheTimes (env.dirOf filePath) t0,
          fileCache := SMap.setV st.fileCache filePath r,
          fileCacheTimes := SMap.setV st.fileCacheTimes filePath t0 },
        true⟩ := by
    unfold parseGoFile
    rw [if_neg hfc]
    unfold parseGoFileSlow
    rw [if_neg (show ¬ pkgCacheValid
        { st with packageCache := SMap.setV st.packageCache filePath (env.dirOf filePath) }
        (env.dirOf filePath) t0 from hpc)]
    rw [if_neg (by rw [hready]; simp)]
    rw [if_neg (by rw [hbin]; simp)]
    rw [if_neg (by rw [hdisk]; simp)]
    rw [hout]
    dsimp only
    rw [if_pos hpkgs]
  rw [h1]
  have hv : fileCacheValid
      { st with
        packageCache := SMap.setV st.packageCache filePath (env.dirOf filePath),
        parseCache := SMap.setV st.parseCache (env.dirOf filePath) r,
        cacheTimes := SMap.setV st.cacheTimes (env.dirOf filePath) t0,
        fileCache := SMap.setV st.fileCache filePath r,
        fileCacheTimes := SMap.setV st.fileCacheTimes filePath t0 } filePath t1 := by
    constructor
    · rw [show SMap.lookup (SMap.setV st.fileCache filePath r) filePath = some r from
        SMap.lookup_setV_self st.fileCache filePath r]
      rfl
    · rw [show SMap.lookup (SMap.setV st.fileCacheTimes filePath t0) filePath = some t0 from
        SMap.lookup_setV_self st.fileCacheTimes filePath t0]
      exact httl
  unfold parseGoFile
  rw [if_pos hv]
  rw [show SMap.lookup (SMap.setV st.fileCache filePath r) filePath = some r from
    SMap.lookup_setV_self st.fileCache filePath r]
  exact ⟨rfl, rfl⟩

/-- Witness for C6 amended: a one-package parse at time 0 followed by a
call at time 10 is a cache hit with the identical result. -/
theorem C6_cache_idempotence_witness :
    (parseGoFile ⟨true, true, true, fun _ => "d", ParseOutcome.ok ⟨[("d", ⟨"d", "main", [], [], []⟩)]⟩⟩
        (parseGoFile ⟨true, true, true, fun _ => "d",
            ParseOutcome.ok ⟨[("d", ⟨"d", "main", [], [], []⟩)]⟩⟩
          emptyCaches "d/f.go" 0).caches "d/f.go" 10).result =
        (parseGoFile ⟨true, true, true, fun _ => "d",
            ParseOutcome.ok ⟨[("d", ⟨"d", "main", [], [], []⟩)]⟩⟩
          emptyCaches "d/f.go" 0).result ∧
      (parseGoFile ⟨true, true, true, fun _ => "d",
          ParseOutcome.ok ⟨[("d", ⟨"d", "main", [], [], []⟩)]⟩⟩
        (parseGoFile ⟨true, true, true, fun _ => "d",
            ParseOutcome.ok ⟨[("d", ⟨"d", "main", [], [], []⟩)]⟩⟩
          emptyCaches "d/f.go" 0).caches "d/f.go" 10).parserInvoked = false :=
  C6_cache_idempotence
    ⟨true, true, true, fun _ => "d", ParseOutcome.ok ⟨[("d", ⟨"d", "main", [], [], []⟩)]⟩⟩
    emptyCaches "d/f.go" 0 10 ⟨[("d", ⟨"d", "main", [], [], []⟩)]⟩
    (by decide) (by decide) rfl rfl rfl rfl (by decide) (by decide)

/-- C7 counterexample: with two unnamed embedded entries, `A` then `B`, the
recorded embedded-type name is `B` — the last entry — not `A`, the first,
as the claim states. -/
theorem C7_counterexample_last_not_first :
    (parseInterfaceFields [⟨[], GoExpr.ident "A"⟩, ⟨[], GoExpr.ident "B"⟩]).2 =
        some "B" ∧
      (parseInterfaceFields [⟨[], GoExpr.ident "A"⟩, ⟨[], GoExpr.ident "B"⟩]).2 ≠
        some "A" := by
  decide

/-- C7 amended: the extractor records exactly one embedded-type name on the
resulting interface record: the last unnamed entry, in declaration order,
whose type name resolves (each later resolvable unnamed entry overwrites
the earlier assignment; unresolvable ones leave it unchanged). -/
theorem C7_internal_type_is_last_resolvable (fields : List GoField) :
    (parseInterfaceFields fields).2 = lastEmbeddedName fields := by
  unfold parseInterfaceFields
  rw [parseInterfaceFold_snd]
  cases h : lastEmbeddedName fields with
  | none => rfl
  | some v => rfl

/-- C8 counterexample: the target directory yields zero type declarations
(one parseable file with an empty declaration list), yet the fallback is
not taken: the parent — which declares an interface — is never scanned and
contributes no package.  The fallback is keyed on zero package entries, not
zero declarations. -/
theorem C8_counterexample_empty_decls_no_fallback :
    (parseDirectory c8fs "proj/sub").2 = ["proj/sub"] ∧
      SMap.lookup (parseDirectory c8fs "proj/sub").1 "proj/sub" =
        some ⟨"proj/sub", "main", [], [], []⟩ ∧
      SMap.lookup (parseDirectory c8fs "proj/sub").1 "proj" = none := by
  decide

/-- C8 amended: package entries are keyed strictly by scanned directory,
and the scanned directories are exactly the target plus — only when the
target yields zero package entries (no parseable Go file) and has a
distinct parent — that parent, scanned once; no directory beyond one level
up is ever scanned. -/
theorem C8_directory_grouping_one_level_fallback (fs : DirFS) (dirPath : String) :
    ((parseDirectory fs dirPath).2 =
      if (processDir fs dirPath ([], [])).1.length = 0 ∧ fs.parent dirPath ≠ dirPath then
        [dirPath, fs.parent dirPath]
      else [dirPath]) ∧
      ∀ k ∈ SMap.keys (parseDirectory fs dirPath).1,
        k = dirPath ∨ k = fs.parent dirPath := by
  have hs0 : (processDir fs dirPath ([], [])).2 = [dirPath] :=
    processDir_scanned fs dirPath ([], []) (by simp)
  unfold parseDirectory
  by_cases hlen : (processDir fs dirPath ([], [])).1.length = 0
  · rw [if_pos hlen]
    by_cases hpar : fs.parent dirPath ≠ dirPath
    · rw [if_pos hpar]
      constructor
      · rw [if_pos ⟨hlen, hpar⟩]
        have hnp : fs.parent dirPath ∉ (processDir fs dirPath ([], [])).2 := by
          rw [hs0]
          intro hmem
          exact hpar (by simpa using hmem)
        rw [processDir_scanned fs (fs.parent dirPath) _ hnp, hs0]
        rfl
      · intro k hk
        rcases processDir_keys fs (fs.parent dirPath) _ k hk with h | h
        · exact Or.inr h
        · rcases processDir_keys fs dirPath ([], []) k h with h' | h'
          · exact Or.inl h'
          · simp [SMap.keys] at h'
    · rw [if_neg hpar]
      constructor
      · rw [if_neg (fun hh => hpar hh.2), hs0]
      · intro k hk
        rcases processDir_keys fs dirPath ([], []) k hk with h | h
        · exact Or.inl h
        · simp [SMap.keys] at h
  · rw [if_neg hlen]
    constructor
    · rw [if_neg (fun hh => hlen hh.1), hs0]
    · intro k hk
      rcases processDir_keys fs dirPath ([], []) k hk with h | h
      · exact Or.inl h
      · simp [SMap.keys] at h

/-- C9: when no key of the struct-method map begins with a star — which is
how the Go extractor produces its input, receiver names being stripped of
pointer indirection with pointer-ness kept only in `isPointer` — the
pointer-receiver reconciliation pass records nothing: the check returns
exactly the result of the variant without that pass. -/
theorem C9_pointer_pass_inert (imm smm : SMap (List String))
    (structsMap : Option (SMap StructEntry))
    (h : ∀ e ∈ smm, jsStartsWith e.1 "*" = false) :
    checkInterfaceImplementations imm smm structsMap =
      checkInterfaceImplementationsNoPtr imm smm structsMap := by
  cases structsMap with
  | none =>
    unfold checkInterfaceImplementations checkInterfaceImplementationsNoPtr
    exact pointerPass_id imm smm _ h
  | some sm =>
    unfold checkInterfaceImplementations checkInterfaceImplementationsNoPtr
    exact pointerPass_id imm smm _ h

/-- Witness for C9 on an extractor-shaped table. -/
theorem C9_pointer_pass_inert_witness :
    checkInterfaceImplementations [("Reader", ["Read"])]
        [("Base", ["Read", "__struct_def__"]), ("File", ["__struct_def__"])] none =
      checkInterfaceImplementationsNoPtr [("Reader", ["Read"])]
        [("Base", ["Read", "__struct_def__"]), ("File", ["__struct_def__"])] none :=
  C9_pointer_pass_inert [("Reader", ["Read"])]
    [("Base", ["Read", "__struct_def__"]), ("File", ["__struct_def__"])] none
    (by decide)

/-- C10 counterexample: interface `Empty` requires no methods; struct `A`
asserts it in a comment; struct `B` embeds `A` and asserts nothing.  After
the explicit and structural passes `B` is not a satisfier of `Empty`, but
the embedding pass records it — so it is not true that only the explicit
pass can record satisfiers for an empty-method interface. -/
theorem C10_counterexample_embedding_propagates_empty_iface :
    ("B" ∉ satisfiers
        (structuralPass [("Empty", ([] : List String))]
          [("A", ["__struct_def__"]), ("B", ["__struct_def__"])]
          (explicitPass [("Empty", ([] : List String))]
            [("A", ⟨some ["Empty"], some []⟩), ("B", ⟨none, some [("A", ⟨"A", true⟩)]⟩)]
            ⟨[], []⟩)) "Empty") ∧
      "B" ∈ satisfiers
        (embeddingPass
          [("A", ⟨some ["Empty"], some []⟩), ("B", ⟨none, some [("A", ⟨"A", true⟩)]⟩)]
          (structuralPass [("Empty", ([] : List String))]
            [("A", ["__struct_def__"]), ("B", ["__struct_def__"])]
            (explicitPass [("Empty", ([] : List String))]
              [("A", ⟨some ["Empty"], some []⟩), ("B", ⟨none, some [("A", ⟨"A", true⟩)]⟩)]
              ⟨[], []⟩))) "Empty" ∧
      "B" ∈ satisfiers
        (checkInterfaceImplementations [("Empty", ([] : List String))]
          [("A", ["__struct_def__"]), ("B", ["__struct_def__"])]
          (some [("A", ⟨some ["Empty"], some []⟩),
            ("B", ⟨none, some [("A", ⟨"A", true⟩)]⟩)])) "Empty" := by
  decide

/-- C10 amended: the structural and pointer-reconciliation passes never
record any satisfier for an interface whose required-method set is empty,
and when no struct explicitly asserts such an interface it never appears as
implemented (its satisfier set stays empty); once explicitly asserted,
however, the embedding pass may propagate it to further structs (see the
counterexample). -/
theorem C10_empty_iface_only_explicit (imm smm : SMap (List String))
    (sm : SMap StructEntry) (emptyIface : String) (st : CheckState)
    (hnd : (SMap.keys imm).Nodup)
    (hlook : SMap.lookup imm emptyIface = some []) :
    satisfiers (structuralPass imm smm st) emptyIface = satisfiers st emptyIface ∧
      satisfiers (pointerPass imm smm st) emptyIface = satisfiers st emptyIface ∧
      ((∀ e ∈ sm, ∀ l, e.2.implementsInterfaces = some l → emptyIface ∉ l) →
        emptyIface ∉ (checkInterfaceImplementations imm smm (some sm)).implemented ∧
          satisfiers (checkInterfaceImplementations imm smm (some sm)) emptyIface = []) := by
  refine ⟨(structuralPass_empty_iface imm smm st emptyIface hnd hlook).1,
    (pointerPass_empty_iface imm smm st emptyIface hnd hlook).1, ?_⟩
  intro hassert
  have hnt : NotTouched emptyIface (checkInterfaceImplementations imm smm (some sm)) := by
    show NotTouched emptyIface (pointerPass imm smm
      (embeddingPass sm (structuralPass imm smm (explicitPass imm sm ⟨[], []⟩))))
    refine notTouched_pointerPass imm smm emptyIface hnd hlook _ ?_
    refine notTouched_embeddingPass sm emptyIface _ ?_
    refine notTouched_structuralPass imm smm emptyIface hnd hlook _ ?_
    refine notTouched_explicitPass imm sm emptyIface hassert _ ?_
    exact ⟨by simp, by simp [SMap.keys]⟩
  exact ⟨hnt.1, satisfiers_eq_nil_of_notKey _ _ hnt.2⟩

/-- Witness for C10 amended, on a table with an empty interface, one
ordinary struct and no assertions. -/
theorem C10_empty_iface_only_explicit_witness :
    satisfiers (structuralPass [("Empty", ([] : List String))] [("A", ["__struct_def__"])]
        ⟨[], []⟩) "Empty" = satisfiers (⟨[], []⟩ : CheckState) "Empty" ∧
      satisfiers (pointerPass [("Empty", ([] : List String))] [("A", ["__struct_def__"])]
        ⟨[], []⟩) "Empty" = satisfiers (⟨[], []⟩ : CheckState) "Empty" ∧
      ((∀ e ∈ [("A", (⟨none, some []⟩ : StructEntry))], ∀ l,
          e.2.implementsInterfaces = some l → "Empty" ∉ l) →
        "Empty" ∉ (checkInterfaceImplementations [("Empty", ([] : List String))]
          [("A", ["__struct_def__"])] (some [("A", ⟨none, some []⟩)])).implemented ∧
          satisfiers (checkInterfaceImplementations [("Empty", ([] : List String))]
            [("A", ["__struct_def__"])] (some [("A", ⟨none, some []⟩)])) "Empty" = []) :=
  C10_empty_iface_only_explicit [("Empty", [])] [("A", ["__struct_def__"])]
    [("A", ⟨none, some []⟩)] "Empty" ⟨[], []⟩ (by decide) (by decide)

end IJump
